import Mathlib

/-!
# Controller-input subsystem of octomino-sdl-input (`src/sdl_input.c`)

A shallow embedding of the axis normaliser (`threshold`, `scale_and_limit`,
`sclamp`), of the controller session (`try_init`, `deinit`, `con_open`,
`con_close`), of the event pump (`con_get_inputs`) and of the snapshot writer
(`con_write_inputs`).

Conventions.
* `int16_t` and `int` values are `Int`; range assumptions are stated as
  hypotheses where they matter.
* `float` values are rationals, and every `float` operation of the source
  (product, difference, quotient) is the exact operation followed by `f32`,
  rounding to the nearest binary32 value with ties to even, subnormals
  included.  The conversion of an `int16_t` or of `32767` to `float` is exact.
  The exponent range is not bounded above: magnitudes beyond the largest finite
  binary32 value, which no `cutoff`, `dz` or `edge` in `[0, 1]` produces, are
  outside the embedding.
* A conversion of a `float` to `int16_t` truncates toward zero and is undefined
  in C when the truncated value does not fit; the embedding returns `none`
  there.
* The SDL platform is an oracle: every answer SDL gives to a call is an
  explicit argument of the embedded function.
-/

namespace SdlInput

/-! ## Binary32 arithmetic -/

/-- Rounding of a rational to the nearest integer, ties to the even one. -/
def roundNE (q : ℚ) : Int :=
  if q - ⌊q⌋ < 1 / 2 then ⌊q⌋
  else if 1 / 2 < q - ⌊q⌋ then ⌊q⌋ + 1
  else if ⌊q⌋ % 2 = 0 then ⌊q⌋ else ⌊q⌋ + 1

/-- Exponent of the unit in the last place of the binary32 values around a
non-negative `q`: 24 significant bits, and `2 ^ (-149)` for subnormals. -/
def f32Exp (q : ℚ) : Int :=
  max (Int.log 2 q - 23) (-149)

/-- Rounding of a non-negative rational to binary32. -/
def f32Mag (q : ℚ) : ℚ :=
  (roundNE (q / 2 ^ f32Exp q) : ℚ) * 2 ^ f32Exp q

/-- Rounding of a rational to binary32: round to nearest, ties to even. -/
def f32 (q : ℚ) : ℚ :=
  if 0 ≤ q then f32Mag q else -f32Mag (-q)

/-! ## Axis normaliser -/

/-- Truncation toward zero of a `float` value, as done by a C conversion to an
integer type. -/
def truncQ (q : ℚ) : Int :=
  if 0 ≤ q then ⌊q⌋ else ⌈q⌉

/-- Conversion of a `float` to `int16_t`: truncation toward zero, undefined
(`none`) when the truncated value is outside `[-32768, 32767]`. -/
def toInt16 (q : ℚ) : Option Int :=
  if -32768 ≤ truncQ q ∧ truncQ q ≤ 32767 then some (truncQ q) else none

/-- Embedding of `int16_t threshold(int16_t val, float cutoff)`. -/
def threshold (val : Int) (cutoff : ℚ) : Int :=
  if val < 0 then
    (if (val : ℚ) ≥ -(f32 (cutoff * 32767)) then 0 else val)
  else
    (if (val : ℚ) ≤ f32 (cutoff * 32767) then 0 else val)

/-- Result of `scale_and_limit`: the values left in `*x` and `*y`, and the
divisors of the division operations executed, in execution order. -/
structure ScaleOut where
  x : Int
  y : Int
  divisors : List ℚ
  deriving DecidableEq

/-- Embedding of `void scale_and_limit(int16_t *x, int16_t *y, float dz, float edge)`.
`none` stands for an undefined `float` to `int16_t` conversion. -/
def scale_and_limit (x y : Int) (dz edge : ℚ) : Option ScaleOut :=
  -- int16_t div = edge * 32767 - dz * 32767;
  match toInt16 (f32 (f32 (edge * 32767) - f32 (dz * 32767))) with
  | none => none
  | some div =>
    if div = 0 then
      some ⟨x, y, []⟩
    else
      let fx0 : ℚ := f32 (f32 (((|x| : Int) : ℚ) - f32 (dz * 32767)) / (div : ℚ))
      let fy0 : ℚ := f32 (f32 (((|y| : Int) : ℚ) - f32 (dz * 32767)) / (div : ℚ))
      let d0 : List ℚ := [(div : ℚ), (div : ℚ)]
      -- if (fx > 1.f) { fy = fy * (1.f / fx); fx = 1.f; }
      let fy1 : ℚ := if fx0 > 1 then f32 (fy0 * f32 (1 / fx0)) else fy0
      let fx1 : ℚ := if fx0 > 1 then 1 else fx0
      let d1 : List ℚ := if fx0 > 1 then d0 ++ [fx0] else d0
      -- if (fy > 1.f) { fx = fx * (1.f / fy); fy = 1.f; }
      let fx2 : ℚ := if fy1 > 1 then f32 (fx1 * f32 (1 / fy1)) else fx1
      let fy2 : ℚ := if fy1 > 1 then 1 else fy1
      let d2 : List ℚ := if fy1 > 1 then d1 ++ [fy1] else d1
      -- if (*y != 0) { if (fy <= 0.f) fy = 0.f; else sign_y = abs(*y) / *y; }
      let fy3 : ℚ := if y ≠ 0 ∧ fy2 ≤ 0 then 0 else fy2
      let sign_y : ℚ := if y ≠ 0 ∧ ¬ fy2 ≤ 0 then ((Int.tdiv |y| y : Int) : ℚ) else 0
      let d3 : List ℚ := if y ≠ 0 ∧ ¬ fy2 ≤ 0 then d2 ++ [(y : ℚ)] else d2
      -- if (*x != 0) { if (fx <= 0.f) fx = 0.f; else sign_x = abs(*x) / *x; }
      let fx3 : ℚ := if x ≠ 0 ∧ fx2 ≤ 0 then 0 else fx2
      let sign_x : ℚ := if x ≠ 0 ∧ ¬ fx2 ≤ 0 then ((Int.tdiv |x| x : Int) : ℚ) else 0
      let d4 : List ℚ := if x ≠ 0 ∧ ¬ fx2 ≤ 0 then d3 ++ [(x : ℚ)] else d3
      -- *x = sign_x * fx * 32767;  *y = sign_y * fy * 32767;
      match toInt16 (f32 (f32 (sign_x * fx3) * 32767)),
            toInt16 (f32 (f32 (sign_y * fy3) * 32767)) with
      | some x1, some y1 => some ⟨x1, y1, d4⟩
      | _, _ => none


/-- Embedding of `int16_t sclamp(int16_t val, int16_t min, int16_t max)`. -/
def sclamp (val min max : Int) : Int :=
  if val ≤ min then min
  else if val ≥ max then max
  else val

/-- Embedding of `int16_t smin(int16_t val, int16_t min)`. -/
def smin (val min : Int) : Int :=
  if val ≤ min then min else val

/-- Embedding of `int16_t smax(int16_t val, int16_t max)`. -/
def smax (val max : Int) : Int :=
  if val ≥ max then max else val

/-! ## Platform oracle -/

/-- Conversion of a `Uint32` (an `SDL_JoystickID`) to `int`. -/
def toInt32 (n : Nat) : Int :=
  if n % 2 ^ 32 < 2 ^ 31 then ((n % 2 ^ 32 : Nat) : Int) else ((n % 2 ^ 32 : Nat) : Int) - 2 ^ 32

/-- Conversion of an `int` to `unsigned int`, as the usual arithmetic conversions
do when an `int` is compared with a `Uint32`. -/
def toUInt32 (i : Int) : Nat :=
  (i % 2 ^ 32).toNat

/-- What SDL reports about a gamepad that `SDL_OpenGamepad` opened: the non-null
handle returned, the `SDL_JoystickID` given by `SDL_GetJoystickID`, and the
result of `SDL_GetGamepadMapping` (`none` for `NULL`). -/
structure Gamepad where
  handle : Nat
  inst : Nat
  mapping : Option String
  deriving DecidableEq, Repr

/-- One entry of the array returned by `SDL_GetJoysticks`, with SDL's answers
for it: `SDL_IsGamepad`, and `SDL_OpenGamepad` (`none` for `NULL`). -/
structure Joystick where
  isGamepad : Bool
  opened : Option Gamepad
  deriving DecidableEq, Repr

/-- Handle calls made to SDL. -/
inductive SdlCall where
  | openGamepad (handle : Nat)
  | closeGamepad (handle : Nat)
  deriving DecidableEq, Repr

/-- Buttons read by `con_write_inputs`. -/
inductive Button where
  | south | east | west | north | back | guide | start
  | leftStick | rightStick | leftShoulder | rightShoulder
  | dpadUp | dpadDown | dpadLeft | dpadRight
  deriving DecidableEq, Repr

/-- Axes read by `con_write_inputs`. -/
inductive Axis where
  | leftX | leftY | rightX | rightY | leftTrigger | rightTrigger
  deriving DecidableEq, Repr

/-- Live device state: SDL's answers to `SDL_GetGamepadButton(con, b)` and
`SDL_GetGamepadAxis(con, a)` for the current value of `con`. -/
structure Pad where
  button : Option Nat → Button → Bool
  axis : Option Nat → Axis → Int

/-! ## Controller session -/

/-- The globals `initialized`, `con` (`none` for `NULL`) and `joy_inst`, with the
handle calls made to SDL so far (oldest first). -/
structure Session where
  initialized : Bool
  con : Option Nat
  joy_inst : Int
  calls : List SdlCall
  deriving DecidableEq, Repr

/-- State at program start: `initialized = 0`, `con = NULL`, `joy_inst = -1`. -/
def Session.initial : Session :=
  ⟨false, none, -1, []⟩

/-- Embedding of `void try_init(void)`; `initOk` is the result of `SDL_Init`. -/
def try_init (initOk : Bool) (s : Session) : Session :=
  if s.initialized then s
  else if initOk then { s with initialized := true }
  else s

/-- Embedding of `void con_close(void)`. -/
def con_close (s : Session) : Session :=
  -- if (!initialized && con != NULL) con = NULL;
  let s1 : Session := if !s.initialized && s.con.isSome then { s with con := none } else s
  -- if (!initialized || con == NULL) return;
  match s1.initialized, s1.con with
  | true, some h =>
    { s1 with con := none, joy_inst := -1, calls := s1.calls ++ [SdlCall.closeGamepad h] }
  | _, _ => s1

/-- Embedding of `void deinit(void)`. -/
def deinit (s : Session) : Session :=
  if !s.initialized then s
  else { con_close s with initialized := false }

/-- The `for` loop of `con_open` over the entries not yet visited. -/
def con_open_scan : List Joystick → Session → Session
  | [], s => s
  | j :: rest, s =>
    -- if (!SDL_IsGamepad(joystick)) continue;
    if !j.isGamepad then con_open_scan rest s
    else
      -- con = SDL_OpenGamepad(joystick);
      match j.opened with
      | none => con_open_scan rest { s with con := none }
      | some g =>
        let s1 : Session :=
          { s with con := some g.handle, joy_inst := toInt32 g.inst,
                   calls := s.calls ++ [SdlCall.openGamepad g.handle] }
        match g.mapping with
        | some _ => s1
        | none => con_open_scan rest (con_close s1)

/-- Embedding of `void con_open(void)`.  `initOk` is the result of `SDL_Init`
should `try_init` run, `connected` the result of `SDL_GamepadConnected(con)`
should it be asked, `joysticks` the result of `SDL_GetJoysticks` (`none` for
`NULL`). -/
def con_open (initOk connected : Bool) (joysticks : Option (List Joystick))
    (s : Session) : Session :=
  let s1 : Session := if !s.initialized then try_init initOk s else s
  if !s1.initialized then s1
  else
    match s1.con with
    | some _ =>
      if connected then s1
      else con_open_scan (joysticks.getD []) (con_close s1)
    | none => con_open_scan (joysticks.getD []) s1

/-! ## Snapshot writer and event pump -/

/-- The fields of `inputs_t` written by `con_write_inputs`. -/
structure inputs_t where
  a : Bool
  b : Bool
  x : Bool
  y : Bool
  back : Bool
  guide : Bool
  start : Bool
  lstick : Bool
  rstick : Bool
  lshoul : Bool
  rshoul : Bool
  dup : Bool
  ddown : Bool
  dleft : Bool
  dright : Bool
  alx : Int
  aly : Int
  arx : Int
  ary : Int
  altrig : Int
  artrig : Int
  deriving DecidableEq, Repr

/-- Embedding of `con_get_but`. -/
def con_get_but (pad : Pad) (s : Session) (b : Button) : Bool :=
  pad.button s.con b

/-- Embedding of `con_get_axis`. -/
def con_get_axis (pad : Pad) (s : Session) (a : Axis) : Int :=
  sclamp (pad.axis s.con a) (-32767) 32767

/-- Embedding of `void con_write_inputs(inputs_t *i)`. -/
def con_write_inputs (pad : Pad) (s : Session) (_i : inputs_t) : inputs_t :=
  { a := con_get_but pad s Button.south
    b := con_get_but pad s Button.east
    x := con_get_but pad s Button.west
    y := con_get_but pad s Button.north
    back := con_get_but pad s Button.back
    guide := con_get_but pad s Button.guide
    start := con_get_but pad s Button.start
    lstick := con_get_but pad s Button.leftStick
    rstick := con_get_but pad s Button.rightStick
    lshoul := con_get_but pad s Button.leftShoulder
    rshoul := con_get_but pad s Button.rightShoulder
    dup := con_get_but pad s Button.dpadUp
    ddown := con_get_but pad s Button.dpadDown
    dleft := con_get_but pad s Button.dpadLeft
    dright := con_get_but pad s Button.dpadRight
    alx := con_get_axis pad s Axis.leftX
    aly := con_get_axis pad s Axis.leftY
    arx := con_get_axis pad s Axis.rightX
    ary := con_get_axis pad s Axis.rightY
    altrig := con_get_axis pad s Axis.leftTrigger
    artrig := con_get_axis pad s Axis.rightTrigger }

/-- An event returned by `SDL_PollEvent`.  A gamepad-added event carries SDL's
answers to the `con_open` call it triggers; a gamepad-removed event carries
`e.cdevice.which`. -/
inductive Event where
  | added (initOk connected : Bool) (joysticks : Option (List Joystick))
  | removed (which : Nat)
  | other
  deriving DecidableEq, Repr

/-- The `switch` of `con_get_inputs` on one polled event. -/
def handle_event (s : Session) : Event → Session
  | Event.added initOk connected joysticks => con_open initOk connected joysticks s
  | Event.removed which =>
    -- if (e.cdevice.which == joy_inst)
    if which = toUInt32 s.joy_inst then con_close s else s
  | Event.other => s

/-- Embedding of `void con_get_inputs(inputs_t *i)`.  `events` are the events
`SDL_PollEvent` returns until the queue is empty.  The result is the session
after the call and the content of `*i` after the call. -/
def con_get_inputs (initOk : Bool) (events : List Event) (pad : Pad)
    (s : Session) (i : inputs_t) : Session × inputs_t :=
  let s1 : Session := if !s.initialized then try_init initOk s else s
  if !s1.initialized then (s1, i)
  else
    let s2 : Session := events.foldl handle_event s1
    if s2.con.isSome then (s2, con_write_inputs pad s2 i) else (s2, i)

/-- One call of the public interface, with SDL's answers during the call. -/
inductive Op where
  | try_init (initOk : Bool)
  | con_open (initOk connected : Bool) (joysticks : Option (List Joystick))
  | con_close
  | deinit
  | con_get_inputs (initOk : Bool) (events : List Event) (pad : Pad) (i : inputs_t)

/-- Session after one call of the public interface. -/
def Op.run (s : Session) : Op → Session
  | Op.try_init initOk => SdlInput.try_init initOk s
  | Op.con_open initOk connected joysticks => SdlInput.con_open initOk connected joysticks s
  | Op.con_close => SdlInput.con_close s
  | Op.deinit => SdlInput.deinit s
  | Op.con_get_inputs initOk events pad i => (SdlInput.con_get_inputs initOk events pad s i).1

/-- Session reached from the initial state by a sequence of calls. -/
def runOps (ops : List Op) : Session :=
  ops.foldl Op.run Session.initial

/-! ## Auxiliary definitions used in the statements -/

/-- Every instance id SDL reports for the entries of an enumeration differs
from `-1` once stored in `joy_inst`. -/
def joysticksIdsOk (js : List Joystick) : Bool :=
  js.all fun j =>
    match j.opened with
    | none => true
    | some g => decide (toInt32 g.inst ≠ -1)

/-- Every instance id SDL reports while an event is handled differs from `-1`. -/
def eventIdsOk : Event → Bool
  | Event.added _ _ joysticks => joysticksIdsOk (joysticks.getD [])
  | Event.removed _ => true
  | Event.other => true

/-- Every instance id SDL reports during a call differs from `-1`. -/
def opIdsOk : Op → Bool
  | Op.con_open _ _ joysticks => joysticksIdsOk (joysticks.getD [])
  | Op.con_get_inputs _ events _ _ => events.all eventIdsOk
  | _ => true

/-- The gamepad of an enumeration entry that is gamepad-capable, opens
successfully and yields a mapping. -/
def viable (j : Joystick) : Option Gamepad :=
  if j.isGamepad then
    match j.opened with
    | some g => if g.mapping.isSome then some g else none
    | none => none
  else none

/-- The handle calls of the scan of `con_open` over an enumeration: each
gamepad-capable entry that opens is opened, and closed again when it has no
mapping; the scan ends at the first entry with a mapping. -/
def scanCalls : List Joystick → List SdlCall
  | [] => []
  | j :: rest =>
    if j.isGamepad then
      match j.opened with
      | none => scanCalls rest
      | some g =>
        if g.mapping.isSome then [SdlCall.openGamepad g.handle]
        else SdlCall.openGamepad g.handle :: SdlCall.closeGamepad g.handle :: scanCalls rest
    else scanCalls rest

/-- Data-model invariant of the session: the handle is present exactly when
`joy_inst` is not the sentinel, and no handle is held while SDL is not
initialised. -/
def SessionInv (s : Session) : Prop :=
  (s.con.isSome = true ↔ s.joy_inst ≠ -1) ∧ (s.initialized = false → s.con = none)

/-- A device at rest: no button pressed, every axis at `0`. -/
def Pad.idle : Pad :=
  ⟨fun _ _ => false, fun _ _ => 0⟩

/-- A device at the extreme negative reading on every axis. -/
def Pad.extreme : Pad :=
  ⟨fun _ _ => true, fun _ _ => -32768⟩

/-- A snapshot with every button released and every axis at `0`. -/
def inputs_t.zero : inputs_t :=
  ⟨false, false, false, false, false, false, false, false, false, false, false, false,
   false, false, false, 0, 0, 0, 0, 0, 0⟩

/-- An axis field `out` is the clamped raw reading `r`. -/
def ClampedFrom (r out : Int) : Prop :=
  -32767 ≤ out ∧ out ≤ 32767 ∧ (-32767 ≤ r → r ≤ 32767 → out = r) ∧ (r = -32768 → out = -32767)

/-- Value of `fx` after the two out-of-range steps of `scale_and_limit`. -/
def limitFx (fx0 fy0 : ℚ) : ℚ :=
  if (if fx0 > 1 then f32 (fy0 * f32 (1 / fx0)) else fy0) > 1 then
    f32 ((if fx0 > 1 then 1 else fx0) *
      f32 (1 / (if fx0 > 1 then f32 (fy0 * f32 (1 / fx0)) else fy0)))
  else (if fx0 > 1 then 1 else fx0)

/-- Value of `fy` after the two out-of-range steps of `scale_and_limit`. -/
def limitFy (fx0 fy0 : ℚ) : ℚ :=
  if (if fx0 > 1 then f32 (fy0 * f32 (1 / fx0)) else fy0) > 1 then 1
  else (if fx0 > 1 then f32 (fy0 * f32 (1 / fx0)) else fy0)

/-- The `float` stored back into an axis by `scale_and_limit`: `sign * f * 32767`
after the deadzone step on the fraction `f` of the axis value `v`. -/
def axisOut (v : Int) (f : ℚ) : ℚ :=
  f32 (f32 ((if v ≠ 0 ∧ ¬ f ≤ 0 then ((Int.tdiv |v| v : Int) : ℚ) else 0)
    * (if v ≠ 0 ∧ f ≤ 0 then 0 else f)) * 32767)

/-- The `float` fraction `(abs(v) - dz * 32767) / div` of `scale_and_limit`. -/
def axisFrac (v : Int) (dz : ℚ) (d : Int) : ℚ :=
  f32 (f32 (((|v| : Int) : ℚ) - f32 (dz * 32767)) / (d : ℚ))

/-- The `float` value of `edge * 32767 - dz * 32767` in `scale_and_limit`. -/
def bandF (dz edge : ℚ) : ℚ :=
  f32 (f32 (edge * 32767) - f32 (dz * 32767))

/-! ## Facts on rounding to the nearest integer -/

theorem roundNE_cases (q : ℚ) : roundNE q = ⌊q⌋ ∨ roundNE q = ⌊q⌋ + 1 := by
  unfold roundNE
  split_ifs <;> simp

theorem floor_le_roundNE (q : ℚ) : ⌊q⌋ ≤ roundNE q := by
  rcases roundNE_cases q with h | h <;> omega

theorem roundNE_le_floor_succ (q : ℚ) : roundNE q ≤ ⌊q⌋ + 1 := by
  rcases roundNE_cases q with h | h <;> omega

theorem roundNE_intCast (n : Int) : roundNE (n : ℚ) = n := by
  unfold roundNE
  simp

theorem le_roundNE {n : Int} {q : ℚ} (h : (n : ℚ) ≤ q) : n ≤ roundNE q :=
  le_trans (Int.le_floor.mpr h) (floor_le_roundNE q)

theorem roundNE_le {n : Int} {q : ℚ} (h : q ≤ n) : roundNE q ≤ n := by
  rcases eq_or_lt_of_le h with h1 | h1
  · rw [h1, roundNE_intCast]
  · have : ⌊q⌋ < n := Int.floor_lt.mpr h1
    have := roundNE_le_floor_succ q
    omega

theorem roundNE_mono {a b : ℚ} (h : a ≤ b) : roundNE a ≤ roundNE b := by
  have hf : ⌊a⌋ ≤ ⌊b⌋ := Int.floor_mono h
  rcases eq_or_lt_of_le hf with he | hl
  · unfold roundNE
    rw [← he]
    have hab : a - ⌊a⌋ ≤ b - ⌊a⌋ := by linarith
    by_cases h1 : a - ⌊a⌋ < 1 / 2
    · rw [if_pos h1]
      split_ifs <;> omega
    · rw [if_neg h1]
      by_cases h2 : 1 / 2 < a - ⌊a⌋
      · rw [if_pos h2, if_neg (by linarith), if_pos (by linarith)]
      · rw [if_neg h2]
        have ha : a - ⌊a⌋ = 1 / 2 := le_antisymm (not_lt.mp h2) (not_lt.mp h1)
        have hb : ¬ b - ⌊a⌋ < 1 / 2 := by linarith
        rw [if_neg hb]
        by_cases h3 : 1 / 2 < b - ⌊a⌋
        · rw [if_pos h3]
          split_ifs <;> omega
        · rw [if_neg h3]
  · have h1 := roundNE_le_floor_succ a
    have h2 := floor_le_roundNE b
    omega

theorem roundNE_sub_le (q : ℚ) : |(roundNE q : ℚ) - q| ≤ 1 / 2 := by
  have h1 := Int.floor_le q
  have h2 := Int.lt_floor_add_one q
  rw [abs_le]
  unfold roundNE
  by_cases c1 : q - ⌊q⌋ < 1 / 2
  · rw [if_pos c1]
    constructor <;> linarith
  · rw [if_neg c1]
    by_cases c2 : 1 / 2 < q - ⌊q⌋
    · rw [if_pos c2]
      push_cast
      constructor <;> linarith
    · rw [if_neg c2]
      have ha : q - ⌊q⌋ = 1 / 2 := le_antisymm (not_lt.mp c2) (not_lt.mp c1)
      split_ifs
      · constructor <;> linarith
      · push_cast
        constructor <;> linarith

theorem roundNE_eq_of_near {n : Int} {q : ℚ} (h1 : (n : ℚ) - 1 / 2 < q) (h2 : q < n + 1 / 2) :
    roundNE q = n := by
  have e := roundNE_sub_le q
  rw [abs_le] at e
  have a : ((roundNE q : Int) : ℚ) < ((n + 1 : Int) : ℚ) := by push_cast; linarith
  have b : (((n - 1 : Int) : Int) : ℚ) < ((roundNE q : Int) : ℚ) := by push_cast; linarith
  have a1 : roundNE q < n + 1 := by exact_mod_cast a
  have b1 : n - 1 < roundNE q := by exact_mod_cast b
  omega

theorem roundNE_tie_even {n : Int} {q : ℚ} (h : q = n + 1 / 2) (hn : n % 2 = 0) :
    roundNE q = n := by
  have hf : ⌊q⌋ = n := by
    rw [Int.floor_eq_iff]
    constructor <;> linarith
  unfold roundNE
  rw [hf]
  rw [if_neg (by linarith), if_neg (by linarith), if_pos hn]

/-! ## Facts on rounding to binary32 -/

theorem two_zpow_pos (k : ℤ) : (0 : ℚ) < 2 ^ k :=
  zpow_pos (by norm_num) k

theorem two_zpow_add (a b : ℤ) : (2 : ℚ) ^ (a + b) = 2 ^ a * 2 ^ b :=
  zpow_add₀ (by norm_num) a b

theorem two_zpow_mono {a b : ℤ} (h : a ≤ b) : (2 : ℚ) ^ a ≤ 2 ^ b :=
  zpow_le_zpow_right₀ (by norm_num) h

theorem two_zpow_log_le {q : ℚ} (h : 0 < q) : (2 : ℚ) ^ Int.log 2 q ≤ q := by
  have := Int.zpow_log_le_self (b := 2) (by norm_num) h
  simpa using this

theorem lt_two_zpow_log (q : ℚ) : q < (2 : ℚ) ^ (Int.log 2 q + 1) := by
  have := Int.lt_zpow_succ_log_self (b := 2) (by norm_num) q
  simpa using this

theorem log_lt_of_lt_two_zpow {q : ℚ} {k : ℤ} (h0 : 0 < q) (h : q < 2 ^ k) : Int.log 2 q < k := by
  have := (Int.lt_zpow_iff_log_lt (b := 2) (by norm_num) (x := k) h0).mp (by simpa using h)
  exact this

theorem le_log_of_two_zpow_le {q : ℚ} {k : ℤ} (h0 : 0 < q) (h : 2 ^ k ≤ q) : k ≤ Int.log 2 q := by
  have := (Int.zpow_le_iff_le_log (b := 2) (by norm_num) (x := k) h0).mp (by simpa using h)
  exact this

theorem f32Exp_ge (q : ℚ) : -149 ≤ f32Exp q :=
  le_max_right _ _

theorem log_sub_le_f32Exp (q : ℚ) : Int.log 2 q - 23 ≤ f32Exp q :=
  le_max_left _ _

theorem f32Mag_zero : f32Mag 0 = 0 := by
  unfold f32Mag
  rw [zero_div]
  have : roundNE 0 = 0 := by simpa using roundNE_intCast 0
  rw [this]
  simp

theorem f32Mag_nonneg {q : ℚ} (h : 0 ≤ q) : 0 ≤ f32Mag q := by
  unfold f32Mag
  have h1 : (0 : Int) ≤ roundNE (q / 2 ^ f32Exp q) :=
    le_roundNE (by simpa using div_nonneg h (two_zpow_pos _).le)
  exact mul_nonneg (by exact_mod_cast h1) (two_zpow_pos _).le

theorem f32Mag_mono {a b : ℚ} (ha : 0 ≤ a) (hab : a ≤ b) : f32Mag a ≤ f32Mag b := by
  rcases eq_or_lt_of_le ha with h0 | hpos
  · rw [← h0, f32Mag_zero]
    exact f32Mag_nonneg (le_trans ha hab)
  have hbpos : 0 < b := lt_of_lt_of_le hpos hab
  have hexp : f32Exp a ≤ f32Exp b :=
    max_le_max (sub_le_sub_right (Int.log_mono_right hpos hab) 23) le_rfl
  rcases eq_or_lt_of_le hexp with he | hl
  · unfold f32Mag
    rw [he]
    refine mul_le_mul_of_nonneg_right ?_ (two_zpow_pos _).le
    have : roundNE (a / 2 ^ f32Exp b) ≤ roundNE (b / 2 ^ f32Exp b) :=
      roundNE_mono (div_le_div_of_nonneg_right hab (two_zpow_pos _).le)
    exact_mod_cast this
  · -- the exponents differ: a power of two lies between the two values
    have hup : f32Mag a ≤ 2 ^ (f32Exp a + 24) := by
      unfold f32Mag
      have h1 : a < 2 ^ (f32Exp a + 24) :=
        lt_of_lt_of_le (lt_two_zpow_log a)
          (two_zpow_mono (by have := log_sub_le_f32Exp a; omega))
      have h2 : a / 2 ^ f32Exp a ≤ (((2 ^ 24 : Int) : Int) : ℚ) := by
        rw [div_le_iff₀ (two_zpow_pos _)]
        have : (2 : ℚ) ^ (f32Exp a + 24) = (((2 ^ 24 : Int) : Int) : ℚ) * 2 ^ f32Exp a := by
          rw [two_zpow_add, mul_comm]
          norm_num
        linarith
      have h3 := roundNE_le h2
      have h4 : ((roundNE (a / 2 ^ f32Exp a) : Int) : ℚ) ≤ (((2 ^ 24 : Int) : Int) : ℚ) := by
        exact_mod_cast h3
      calc ((roundNE (a / 2 ^ f32Exp a) : Int) : ℚ) * 2 ^ f32Exp a
          ≤ (((2 ^ 24 : Int) : Int) : ℚ) * 2 ^ f32Exp a :=
            mul_le_mul_of_nonneg_right h4 (two_zpow_pos _).le
        _ = 2 ^ (f32Exp a + 24) := by
            rw [two_zpow_add, mul_comm]
            norm_num
    have hlow : (2 : ℚ) ^ (f32Exp b + 23) ≤ f32Mag b := by
      have hb149 : -149 < f32Exp b := lt_of_le_of_lt (f32Exp_ge a) hl
      have heb : f32Exp b = Int.log 2 b - 23 := by
        unfold f32Exp at hb149 ⊢
        rcases max_cases (Int.log 2 b - 23) (-149) with h | h
        · exact h.1
        · rw [h.1] at hb149; omega
      unfold f32Mag
      have h1 : (2 : ℚ) ^ (f32Exp b + 23) ≤ b := by
        rw [heb]
        have := two_zpow_log_le hbpos
        simpa using this
      have h2 : (((2 ^ 23 : Int) : Int) : ℚ) ≤ b / 2 ^ f32Exp b := by
        rw [le_div_iff₀ (two_zpow_pos _)]
        have : (2 : ℚ) ^ (f32Exp b + 23) = (((2 ^ 23 : Int) : Int) : ℚ) * 2 ^ f32Exp b := by
          rw [two_zpow_add, mul_comm]
          norm_num
        linarith
      have h3 := le_roundNE h2
      have h4 : (((2 ^ 23 : Int) : Int) : ℚ) ≤ ((roundNE (b / 2 ^ f32Exp b) : Int) : ℚ) := by
        exact_mod_cast h3
      calc (2 : ℚ) ^ (f32Exp b + 23) = (((2 ^ 23 : Int) : Int) : ℚ) * 2 ^ f32Exp b := by
            rw [two_zpow_add, mul_comm]
            norm_num
        _ ≤ ((roundNE (b / 2 ^ f32Exp b) : Int) : ℚ) * 2 ^ f32Exp b :=
            mul_le_mul_of_nonneg_right h4 (two_zpow_pos _).le
    exact le_trans hup (le_trans (two_zpow_mono (by omega)) hlow)

theorem f32Mag_rep (m : ℕ) (k : ℤ) (hm : m < 2 ^ 24) (hk : -149 ≤ k) :
    f32Mag ((m : ℚ) * 2 ^ k) = (m : ℚ) * 2 ^ k := by
  rcases Nat.eq_zero_or_pos m with h0 | hpos
  · subst h0
    simp [f32Mag_zero]
  have hq : (0 : ℚ) < (m : ℚ) * 2 ^ k := mul_pos (by exact_mod_cast hpos) (two_zpow_pos k)
  have hlt : (m : ℚ) * 2 ^ k < 2 ^ (k + 24) := by
    rw [two_zpow_add, mul_comm]
    have : (m : ℚ) < 2 ^ (24 : ℤ) := by
      have h1 : (m : ℚ) < ((2 ^ 24 : ℕ) : ℚ) := by exact_mod_cast hm
      have h2 : (((2 ^ 24 : ℕ) : ℕ) : ℚ) = 2 ^ (24 : ℤ) := by norm_num
      rw [h2] at h1
      exact h1
    exact mul_lt_mul_of_pos_left this (two_zpow_pos k)
  have hlog := log_lt_of_lt_two_zpow hq hlt
  have he : f32Exp ((m : ℚ) * 2 ^ k) ≤ k := max_le (by omega) hk
  unfold f32Mag
  generalize f32Exp ((m : ℚ) * 2 ^ k) = e at he
  obtain ⟨d, hd⟩ : ∃ d : ℕ, k = e + d := ⟨(k - e).toNat, by omega⟩
  have hsplit : (2 : ℚ) ^ k = ((2 ^ d : ℕ) : ℚ) * 2 ^ e := by
    rw [hd, two_zpow_add, mul_comm, zpow_natCast]
    push_cast
    ring
  have hdiv : (m : ℚ) * 2 ^ k / 2 ^ e = (((m * 2 ^ d : ℕ) : Int) : ℚ) := by
    rw [hsplit, ← mul_assoc, mul_div_assoc, div_self (two_zpow_pos e).ne']
    push_cast
    ring
  rw [hdiv, roundNE_intCast, hsplit]
  push_cast
  ring

theorem f32Mag_err {q : ℚ} (hq : 2 ^ (-126 : ℤ) ≤ q) : |f32Mag q - q| ≤ q / 2 ^ 24 := by
  have hpos : 0 < q := lt_of_lt_of_le (two_zpow_pos _) hq
  have hlog : -126 ≤ Int.log 2 q := le_log_of_two_zpow_le hpos hq
  have he : f32Exp q = Int.log 2 q - 23 := by
    unfold f32Exp
    exact max_eq_left (by omega)
  have hr := roundNE_sub_le (q / 2 ^ f32Exp q)
  have hpe := two_zpow_pos (f32Exp q)
  have h1 : f32Mag q - q = ((roundNE (q / 2 ^ f32Exp q) : ℚ) - q / 2 ^ f32Exp q) * 2 ^ f32Exp q := by
    unfold f32Mag
    field_simp
  have h2 : (2 : ℚ) ^ f32Exp q ≤ q / 2 ^ 23 := by
    rw [le_div_iff₀ (by norm_num)]
    have := two_zpow_log_le hpos
    have h3 : (2 : ℚ) ^ Int.log 2 q = 2 ^ f32Exp q * 2 ^ 23 := by
      rw [he, show Int.log 2 q = (Int.log 2 q - 23) + 23 by ring, two_zpow_add]
      norm_num
    linarith
  rw [h1, abs_mul, abs_of_pos hpe]
  calc |(roundNE (q / 2 ^ f32Exp q) : ℚ) - q / 2 ^ f32Exp q| * 2 ^ f32Exp q
      ≤ 1 / 2 * 2 ^ f32Exp q := mul_le_mul_of_nonneg_right hr hpe.le
    _ ≤ 1 / 2 * (q / 2 ^ 23) := mul_le_mul_of_nonneg_left h2 (by norm_num)
    _ = q / 2 ^ 24 := by ring

theorem f32_of_nonneg {q : ℚ} (h : 0 ≤ q) : f32 q = f32Mag q := by
  unfold f32
  rw [if_pos h]

theorem f32_zero : f32 0 = 0 := by
  rw [f32_of_nonneg le_rfl, f32Mag_zero]

theorem f32_neg (q : ℚ) : f32 (-q) = -f32 q := by
  rcases lt_trichotomy q 0 with h | h | h
  · unfold f32
    rw [if_pos (by linarith), if_neg (by linarith)]
    simp
  · subst h
    simp [f32_zero]
  · unfold f32
    rw [if_neg (by linarith), if_pos (by linarith)]
    simp

theorem f32_nonneg {q : ℚ} (h : 0 ≤ q) : 0 ≤ f32 q := by
  rw [f32_of_nonneg h]
  exact f32Mag_nonneg h

theorem f32_nonpos {q : ℚ} (h : q ≤ 0) : f32 q ≤ 0 := by
  have := f32_nonneg (neg_nonneg.mpr h)
  rw [f32_neg] at this
  linarith

theorem f32_mono {a b : ℚ} (h : a ≤ b) : f32 a ≤ f32 b := by
  rcases le_or_lt 0 a with ha | ha
  · rw [f32_of_nonneg ha, f32_of_nonneg (le_trans ha h)]
    exact f32Mag_mono ha h
  · rcases le_or_lt 0 b with hb | hb
    · exact le_trans (f32_nonpos ha.le) (f32_nonneg hb)
    · have h1 := f32Mag_mono (neg_nonneg.mpr hb.le) (neg_le_neg h)
      have ea : f32 a = -f32Mag (-a) := by
        unfold f32; rw [if_neg (by linarith)]
      have eb : f32 b = -f32Mag (-b) := by
        unfold f32; rw [if_neg (by linarith)]
      rw [ea, eb]
      linarith

theorem f32_rep (m : ℕ) (k : ℤ) (hm : m < 2 ^ 24) (hk : -149 ≤ k) :
    f32 ((m : ℚ) * 2 ^ k) = (m : ℚ) * 2 ^ k := by
  rw [f32_of_nonneg (mul_nonneg (by exact_mod_cast Nat.zero_le m) (two_zpow_pos k).le)]
  exact f32Mag_rep m k hm hk

theorem f32_natCast (n : ℕ) (h : n < 2 ^ 24) : f32 (n : ℚ) = n := by
  have := f32_rep n 0 h (by norm_num)
  simpa using this

theorem f32_intCast (n : Int) (h : n.natAbs < 2 ^ 24) : f32 (n : ℚ) = n := by
  have hn := f32_natCast n.natAbs h
  rcases Int.natAbs_eq n with e | e
  · have c : (n : ℚ) = ((n.natAbs : ℕ) : ℚ) := by
      rw [← Int.cast_natCast, ← e]
    rw [c]
    exact hn
  · have c : (n : ℚ) = -((n.natAbs : ℕ) : ℚ) := by
      rw [← Int.cast_natCast, ← Int.cast_neg, ← e]
    rw [c, f32_neg, hn]

theorem f32_le_of_le {q r : ℚ} (hr : f32 r = r) (h : q ≤ r) : f32 q ≤ r := by
  rw [← hr]
  exact f32_mono h

theorem le_f32_of_le {q r : ℚ} (hr : f32 r = r) (h : r ≤ q) : r ≤ f32 q := by
  rw [← hr]
  exact f32_mono h

theorem f32_err {q : ℚ} (hq : 2 ^ (-126 : ℤ) ≤ q) : |f32 q - q| ≤ q / 2 ^ 24 := by
  rw [f32_of_nonneg (le_trans (two_zpow_pos _).le hq)]
  exact f32Mag_err hq

theorem f32_one : f32 1 = 1 := by
  simpa using f32_natCast 1 (by norm_num)

theorem f32_32767 : f32 32767 = 32767 := by
  simpa using f32_natCast 32767 (by norm_num)

theorem f32_one_add_half_ulp : f32 (1 + 1 / 2 ^ 24) = 1 := by
  have hq : (0 : ℚ) < 1 + 1 / 2 ^ 24 := by norm_num
  have hlog : Int.log 2 (1 + 1 / 2 ^ 24 : ℚ) = 0 := by
    have h1 := le_log_of_two_zpow_le (k := 0) hq (by norm_num)
    have h2 := log_lt_of_lt_two_zpow (k := 1) hq (by norm_num)
    omega
  have he : f32Exp (1 + 1 / 2 ^ 24 : ℚ) = -23 := by
    unfold f32Exp
    rw [hlog]
    rfl
  rw [f32_of_nonneg hq.le]
  unfold f32Mag
  rw [he]
  have hr : roundNE ((1 + 1 / 2 ^ 24 : ℚ) / 2 ^ (-23 : ℤ)) = 8388608 :=
    roundNE_tie_even (by norm_num) (by norm_num)
  rw [hr]
  norm_num

theorem f32_inv_bounds {t : ℚ} (ht : 1 < t) : 0 ≤ f32 (1 / t) ∧ f32 (1 / t) ≤ 1 := by
  have hpos : 0 < t := lt_trans one_pos ht
  refine ⟨f32_nonneg (div_nonneg zero_le_one hpos.le), f32_le_of_le f32_one ?_⟩
  rw [div_le_one hpos]
  exact ht.le

theorem tdiv_abs_of_pos {v : Int} (h : 0 < v) : Int.tdiv |v| v = 1 := by
  rw [abs_of_pos h]
  exact Int.tdiv_self (by omega)

theorem tdiv_abs_of_neg {v : Int} (h : v < 0) : Int.tdiv |v| v = -1 := by
  rw [abs_of_neg h, Int.neg_tdiv, Int.tdiv_self (by omega)]

theorem axisOut_of_nonpos (v : Int) {f : ℚ} (h : f ≤ 0) : axisOut v f = 0 := by
  unfold axisOut
  simp [h, f32_zero]

theorem axisOut_zero (f : ℚ) : axisOut 0 f = 0 := by
  unfold axisOut
  simp [f32_zero]

theorem axisOut_of_pos {v : Int} {f : ℚ} (hv : 0 < v) (hf : 0 < f) :
    axisOut v f = f32 (f32 f * 32767) := by
  unfold axisOut
  have hv0 : v ≠ 0 := by omega
  have hf0 : ¬ f ≤ 0 := not_le.mpr hf
  simp [hv0, hf0, tdiv_abs_of_pos hv]

theorem axisOut_of_neg {v : Int} {f : ℚ} (hv : v < 0) (hf : 0 < f) :
    axisOut v f = -f32 (f32 f * 32767) := by
  unfold axisOut
  have hv0 : v ≠ 0 := by omega
  have hf0 : ¬ f ≤ 0 := not_le.mpr hf
  simp only [hv0, hf0, tdiv_abs_of_neg hv, ne_eq, not_false_eq_true, and_self, if_true,
    and_false, if_false]
  have : ((-1 : Int) : ℚ) * f = -f := by push_cast; ring
  rw [this, f32_neg, neg_mul, f32_neg]

theorem f32_scaled_bounds {f : ℚ} (h0 : 0 < f) (h1 : f ≤ 1) :
    0 ≤ f32 (f32 f * 32767) ∧ f32 (f32 f * 32767) ≤ 32767 := by
  have a0 : 0 ≤ f32 f := f32_nonneg h0.le
  have a1 : f32 f ≤ 1 := f32_le_of_le f32_one h1
  exact ⟨f32_nonneg (by nlinarith), f32_le_of_le f32_32767 (by nlinarith)⟩

theorem axisOut_bounds (v : Int) {f : ℚ} (hf : f ≤ 1) :
    -32767 ≤ axisOut v f ∧ axisOut v f ≤ 32767 := by
  rcases le_or_lt f 0 with h0 | h0
  · rw [axisOut_of_nonpos v h0]; norm_num
  · have b := f32_scaled_bounds h0 hf
    rcases lt_trichotomy v 0 with hv | hv | hv
    · rw [axisOut_of_neg hv h0]; constructor <;> linarith [b.1, b.2]
    · subst hv; rw [axisOut_zero]; norm_num
    · rw [axisOut_of_pos hv h0]; constructor <;> linarith [b.1, b.2]

/-! ## Facts on truncation -/

theorem truncQ_zero : truncQ 0 = 0 := by
  simp [truncQ]

theorem truncQ_intCast (n : Int) : truncQ (n : ℚ) = n := by
  unfold truncQ
  split <;> simp

theorem truncQ_nonneg {q : ℚ} (h : 0 ≤ q) : 0 ≤ truncQ q := by
  unfold truncQ
  rw [if_pos h]
  exact Int.floor_nonneg.mpr h

theorem truncQ_nonpos {q : ℚ} (h : q ≤ 0) : truncQ q ≤ 0 := by
  unfold truncQ
  split
  · have : q = 0 := le_antisymm h (by assumption)
    subst this
    simp
  · exact Int.ceil_le.mpr (by simpa using h)

theorem truncQ_le_of_le {q : ℚ} {n : Int} (h : q ≤ n) (hn : 0 ≤ n) : truncQ q ≤ n := by
  unfold truncQ
  split
  · exact Int.floor_le_iff.mpr (lt_of_le_of_lt h (by simp))
  · rename_i hq
    have : truncQ q ≤ 0 := truncQ_nonpos (le_of_lt (not_le.mp hq))
    unfold truncQ at this
    rw [if_neg hq] at this
    omega

theorem truncQ_ge_of_ge {q : ℚ} {n : Int} (h : (n : ℚ) ≤ q) (hn : n ≤ 0) : n ≤ truncQ q := by
  unfold truncQ
  split
  · rename_i hq
    have := Int.floor_nonneg.mpr hq
    omega
  · exact Int.le_ceil_iff.mpr (lt_of_lt_of_le (by simp) h)

theorem truncQ_eq_of_floor {q : ℚ} {n : Int} (h0 : 0 ≤ q) (h1 : (n : ℚ) ≤ q) (h2 : q < n + 1) :
    truncQ q = n := by
  unfold truncQ
  rw [if_pos h0]
  exact Int.floor_eq_iff.mpr ⟨h1, h2⟩

theorem toInt16_of_abs_le {q : ℚ} (h1 : -32767 ≤ q) (h2 : q ≤ 32767) :
    toInt16 q = some (truncQ q) := by
  unfold toInt16
  have a : truncQ q ≤ 32767 := truncQ_le_of_le (by exact_mod_cast h2) (by norm_num)
  have b : (-32767 : Int) ≤ truncQ q := truncQ_ge_of_ge (by exact_mod_cast h1) (by norm_num)
  rw [if_pos ⟨by omega, a⟩]

theorem truncQ_le_self {q : ℚ} (h : 0 ≤ q) : ((truncQ q : Int) : ℚ) ≤ q := by
  unfold truncQ
  rw [if_pos h]
  exact Int.floor_le q

theorem limitFx_le_one (fx0 fy0 : ℚ) : limitFx fx0 fy0 ≤ 1 := by
  unfold limitFx
  have h1 : (if fx0 > 1 then (1 : ℚ) else fx0) ≤ 1 := by
    split
    · exact le_rfl
    · rename_i h; exact not_lt.mp h
  generalize (if fx0 > 1 then (1 : ℚ) else fx0) = fx1 at h1
  generalize (if fx0 > 1 then f32 (fy0 * f32 (1 / fx0)) else fy0) = fy1
  by_cases hy : fy1 > 1
  · rw [if_pos hy]
    obtain ⟨r0, r1⟩ := f32_inv_bounds hy
    exact f32_le_of_le f32_one (by nlinarith [mul_nonneg (sub_nonneg.mpr h1) r0])
  · rw [if_neg hy]
    exact h1

theorem limitFy_le_one (fx0 fy0 : ℚ) : limitFy fx0 fy0 ≤ 1 := by
  unfold limitFy
  generalize (if fx0 > 1 then f32 (fy0 * f32 (1 / fx0)) else fy0) = fy1
  by_cases h : fy1 > 1
  · rw [if_pos h]
  · rw [if_neg h]
    exact not_lt.mp h

theorem limitFx_nonpos {fx0 : ℚ} (fy0 : ℚ) (h : fx0 ≤ 0) : limitFx fx0 fy0 ≤ 0 := by
  unfold limitFx
  have hx : ¬ fx0 > 1 := by intro h1; linarith
  simp only [hx, if_false]
  by_cases hy : fy0 > 1
  · rw [if_pos hy]
    obtain ⟨r0, _⟩ := f32_inv_bounds hy
    exact f32_nonpos (mul_nonpos_of_nonpos_of_nonneg h r0)
  · rw [if_neg hy]
    exact h

theorem limitFy_nonpos (fx0 : ℚ) {fy0 : ℚ} (h : fy0 ≤ 0) : limitFy fx0 fy0 ≤ 0 := by
  unfold limitFy
  have h1 : (if fx0 > 1 then f32 (fy0 * f32 (1 / fx0)) else fy0) ≤ 0 := by
    split
    · rename_i hx
      obtain ⟨r0, _⟩ := f32_inv_bounds hx
      exact f32_nonpos (mul_nonpos_of_nonpos_of_nonneg h r0)
    · exact h
  generalize (if fx0 > 1 then f32 (fy0 * f32 (1 / fx0)) else fy0) = fy1 at h1
  have hy : ¬ fy1 > 1 := by intro h2; linarith
  rw [if_neg hy]
  exact h1

theorem f32_le_mul {q : ℚ} (hq : 2 ^ (-126 : ℤ) ≤ q) : f32 q ≤ q * (1 + 1 / 2 ^ 24) := by
  have := abs_le.mp (f32_err hq)
  have e : q * (1 + 1 / 2 ^ 24) = q + q / 2 ^ 24 := by ring
  linarith [this.2]

theorem mul_le_f32 {q : ℚ} (hq : 2 ^ (-126 : ℤ) ≤ q) : q * (1 - 1 / 2 ^ 24) ≤ f32 q := by
  have := abs_le.mp (f32_err hq)
  have e : q * (1 - 1 / 2 ^ 24) = q - q / 2 ^ 24 := by ring
  linarith [this.1]

theorem limitFx_full {fx0 fy0 : ℚ} (h1 : 1 ≤ fx0) (h2 : fy0 ≤ fx0) (h3 : fx0 ≤ 65536) :
    limitFx fx0 fy0 = 1 := by
  unfold limitFx
  by_cases hx : fx0 > 1
  · simp only [hx, if_true]
    have hpos : 0 < fx0 := lt_trans one_pos hx
    obtain ⟨r0, _⟩ := f32_inv_bounds hx
    have hinv : (2 : ℚ) ^ (-126 : ℤ) ≤ 1 / fx0 := by
      rw [le_div_iff₀ hpos]
      have : (2 : ℚ) ^ (-126 : ℤ) * 65536 ≤ 1 := by norm_num
      nlinarith [two_zpow_pos (-126)]
    have hr := f32_le_mul hinv
    have hprod : fx0 * f32 (1 / fx0) ≤ 1 + 1 / 2 ^ 24 := by
      have : fx0 * (1 / fx0 * (1 + 1 / 2 ^ 24)) = 1 + 1 / 2 ^ 24 := by
        field_simp
        ring
      calc fx0 * f32 (1 / fx0) ≤ fx0 * (1 / fx0 * (1 + 1 / 2 ^ 24)) :=
            mul_le_mul_of_nonneg_left hr hpos.le
        _ = 1 + 1 / 2 ^ 24 := this
    have hle : fy0 * f32 (1 / fx0) ≤ 1 + 1 / 2 ^ 24 :=
      le_trans (mul_le_mul_of_nonneg_right h2 r0) hprod
    have hy : ¬ f32 (fy0 * f32 (1 / fx0)) > 1 := by
      have := f32_mono hle
      rw [f32_one_add_half_ulp] at this
      exact not_lt.mpr this
    rw [if_neg hy]
  · simp only [hx, if_false]
    have he : fx0 = 1 := le_antisymm (not_lt.mp hx) h1
    have hy : ¬ fy0 > 1 := by intro h; linarith
    rw [if_neg hy]
    exact he

theorem limitFy_full {fx0 fy0 : ℚ} (h1 : 1 ≤ fy0)
    (h2 : fx0 > 1 → 1 ≤ fy0 * f32 (1 / fx0)) : limitFy fx0 fy0 = 1 := by
  unfold limitFy
  have hge : 1 ≤ (if fx0 > 1 then f32 (fy0 * f32 (1 / fx0)) else fy0) := by
    split
    · rename_i hx
      exact le_f32_of_le f32_one (h2 hx)
    · exact h1
  generalize (if fx0 > 1 then f32 (fy0 * f32 (1 / fx0)) else fy0) = fy1 at hge
  by_cases hy : fy1 > 1
  · rw [if_pos hy]
  · rw [if_neg hy]
    exact le_antisymm (not_lt.mp hy) hge

/-! ## Facts on `scale_and_limit` -/

theorem scale_and_limit_degenerate (x y : Int) (dz edge : ℚ)
    (h : truncQ (bandF dz edge) = 0) :
    scale_and_limit x y dz edge = some ⟨x, y, []⟩ := by
  have ht : toInt16 (f32 (f32 (edge * 32767) - f32 (dz * 32767))) = some 0 := by
    unfold toInt16
    unfold bandF at h
    rw [h, if_pos ⟨by norm_num, by norm_num⟩]
  unfold scale_and_limit
  rw [ht]
  rfl

theorem scale_and_limit_main (x y : Int) (dz edge : ℚ) (d : Int)
    (hd : truncQ (bandF dz edge) = d) (h1 : 1 ≤ d) (h2 : d ≤ 32767) :
    ∃ ds, scale_and_limit x y dz edge =
      (match toInt16 (axisOut x (limitFx (axisFrac x dz d) (axisFrac y dz d))),
             toInt16 (axisOut y (limitFy (axisFrac x dz d) (axisFrac y dz d))) with
       | some x1, some y1 => some ⟨x1, y1, ds⟩
       | _, _ => none) := by
  have hne : d ≠ 0 := by omega
  have ht : toInt16 (f32 (f32 (edge * 32767) - f32 (dz * 32767))) = some d := by
    unfold toInt16
    unfold bandF at hd
    rw [hd, if_pos ⟨by omega, h2⟩]
  unfold scale_and_limit
  rw [ht]
  simp only [hne, if_false]
  exact ⟨_, rfl⟩

theorem scale_and_limit_value (x y : Int) (dz edge : ℚ) (d : Int)
    (hd : truncQ (bandF dz edge) = d) (h1 : 1 ≤ d) (h2 : d ≤ 32767) :
    ∃ ds, scale_and_limit x y dz edge =
      some ⟨truncQ (axisOut x (limitFx (axisFrac x dz d) (axisFrac y dz d))),
            truncQ (axisOut y (limitFy (axisFrac x dz d) (axisFrac y dz d))), ds⟩ := by
  obtain ⟨ds, hds⟩ := scale_and_limit_main x y dz edge d hd h1 h2
  refine ⟨ds, ?_⟩
  rw [hds]
  have bx := axisOut_bounds x (limitFx_le_one (axisFrac x dz d) (axisFrac y dz d))
  have b := axisOut_bounds y (limitFy_le_one (axisFrac x dz d) (axisFrac y dz d))
  rw [toInt16_of_abs_le bx.1 bx.2, toInt16_of_abs_le b.1 b.2]

theorem f32_prod_bounds {c : ℚ} (h0 : 0 ≤ c) (h1 : c ≤ 1) :
    0 ≤ f32 (c * 32767) ∧ f32 (c * 32767) ≤ 32767 :=
  ⟨f32_nonneg (by linarith), f32_le_of_le f32_32767 (by linarith)⟩

theorem bandF_bounds {dz edge : ℚ} (hdz : 0 ≤ dz) (hle : dz ≤ edge) (he : edge ≤ 1) :
    0 ≤ bandF dz edge ∧ bandF dz edge ≤ 32767 := by
  unfold bandF
  have hD := f32_prod_bounds hdz (le_trans hle he)
  have hE := f32_prod_bounds (le_trans hdz hle) he
  have hm : f32 (dz * 32767) ≤ f32 (edge * 32767) := f32_mono (by linarith)
  exact ⟨f32_nonneg (by linarith), f32_le_of_le f32_32767 (by linarith [hD.1, hE.2])⟩

theorem band_divisor {dz edge : ℚ} (hdz : 0 ≤ dz) (hle : dz ≤ edge) (he : edge ≤ 1)
    (hne : truncQ (bandF dz edge) ≠ 0) :
    1 ≤ truncQ (bandF dz edge) ∧ truncQ (bandF dz edge) ≤ 32767 ∧
      ((truncQ (bandF dz edge) : Int) : ℚ) ≤ bandF dz edge := by
  obtain ⟨b0, b1⟩ := bandF_bounds hdz hle he
  have h0 := truncQ_nonneg b0
  have h1 : truncQ (bandF dz edge) ≤ 32767 := truncQ_le_of_le (by exact_mod_cast b1) (by norm_num)
  exact ⟨by omega, h1, truncQ_le_self b0⟩

theorem abs_rep (v : Int) (h : |v| ≤ 32768) : f32 ((|v| : Int) : ℚ) = ((|v| : Int) : ℚ) := by
  apply f32_intCast
  have h0 := abs_nonneg v
  omega

theorem axisFrac_nonpos (v : Int) {dz : ℚ} {d : Int} (hd : 1 ≤ d) (h1 : dz ≤ 1)
    (h : ((|v| : Int) : ℚ) < dz * 32767) : axisFrac v dz d ≤ 0 := by
  have hv : |v| ≤ 32768 := by
    have : ((|v| : Int) : ℚ) < ((32768 : Int) : ℚ) := by
      have e : ((32768 : Int) : ℚ) = 32768 := by norm_num
      rw [e]
      linarith
    have : |v| < 32768 := by exact_mod_cast this
    omega
  have hD : ((|v| : Int) : ℚ) ≤ f32 (dz * 32767) := le_f32_of_le (abs_rep v hv) h.le
  unfold axisFrac
  have hdpos : (0 : ℚ) < (d : ℚ) := by exact_mod_cast (by omega : 0 < d)
  exact f32_nonpos (div_nonpos_of_nonpos_of_nonneg (f32_nonpos (by linarith)) hdpos.le)

theorem scale_and_limit_deadzone (x y : Int) (dz edge : ℚ)
    (hdz : 0 ≤ dz) (hlt : dz < edge) (he : edge ≤ 1)
    (hne : truncQ (bandF dz edge) ≠ 0) :
    ∃ r, scale_and_limit x y dz edge = some r ∧
      ((((|x| : Int) : ℚ) < dz * 32767) → r.x = 0) ∧
      ((((|y| : Int) : ℚ) < dz * 32767) → r.y = 0) := by
  obtain ⟨h1, h2, _⟩ := band_divisor hdz hlt.le he hne
  obtain ⟨ds, hds⟩ := scale_and_limit_value x y dz edge _ rfl h1 h2
  have hdz1 : dz ≤ 1 := le_trans hlt.le he
  refine ⟨_, hds, ?_, ?_⟩
  · intro hx
    show truncQ _ = 0
    rw [axisOut_of_nonpos x (limitFx_nonpos _ (axisFrac_nonpos x h1 hdz1 hx)), truncQ_zero]
  · intro hy
    show truncQ _ = 0
    rw [axisOut_of_nonpos y (limitFy_nonpos _ (axisFrac_nonpos y h1 hdz1 hy)), truncQ_zero]

theorem axisFrac_mono {v w : Int} (dz : ℚ) {d : Int} (hd : 1 ≤ d) (h : |v| ≤ |w|) :
    axisFrac v dz d ≤ axisFrac w dz d := by
  unfold axisFrac
  have hdpos : (0 : ℚ) < (d : ℚ) := by exact_mod_cast (by omega : 0 < d)
  have hc : ((|v| : Int) : ℚ) ≤ ((|w| : Int) : ℚ) := by exact_mod_cast h
  exact f32_mono (div_le_div_of_nonneg_right (f32_mono (by linarith)) hdpos.le)

theorem axisFrac_le (v : Int) {dz : ℚ} {d : Int} (hd : 1 ≤ d) (hdz : 0 ≤ dz)
    (hv : |v| ≤ 32768) : axisFrac v dz d ≤ 32768 := by
  unfold axisFrac
  have hdpos : (0 : ℚ) < (d : ℚ) := by exact_mod_cast (by omega : 0 < d)
  have hd1 : (1 : ℚ) ≤ (d : ℚ) := by exact_mod_cast hd
  have hD : 0 ≤ f32 (dz * 32767) := f32_nonneg (by linarith)
  have hc : ((|v| : Int) : ℚ) ≤ 32768 := by exact_mod_cast hv
  have r : f32 (32768 : ℚ) = 32768 := by simpa using f32_natCast 32768 (by norm_num)
  have hn : f32 (((|v| : Int) : ℚ) - f32 (dz * 32767)) ≤ 32768 := f32_le_of_le r (by linarith)
  refine f32_le_of_le r ?_
  rw [div_le_iff₀ hdpos]
  nlinarith

theorem axisFrac_ge_one (v : Int) {dz edge : ℚ} (hv : |v| ≤ 32768)
    (h1 : 1 ≤ truncQ (bandF dz edge)) (hbig : edge * 32767 ≤ ((|v| : Int) : ℚ)) :
    1 ≤ axisFrac v dz (truncQ (bandF dz edge)) := by
  have hb0 : 0 ≤ bandF dz edge := by
    by_contra hneg
    have := truncQ_nonpos (le_of_lt (not_le.mp hneg))
    omega
  have hdle := truncQ_le_self hb0
  have hdpos : (0 : ℚ) < ((truncQ (bandF dz edge) : Int) : ℚ) := by
    exact_mod_cast (by omega : 0 < truncQ (bandF dz edge))
  have hE : f32 (edge * 32767) ≤ ((|v| : Int) : ℚ) := f32_le_of_le (abs_rep v hv) hbig
  have hn : bandF dz edge ≤ f32 (((|v| : Int) : ℚ) - f32 (dz * 32767)) := by
    unfold bandF
    exact f32_mono (by linarith)
  unfold axisFrac
  refine le_f32_of_le f32_one ?_
  rw [le_div_iff₀ hdpos]
  linarith

theorem axisFrac_gap {v w : Int} {dz : ℚ} {d : Int} (hd1 : 1 ≤ d) (hd2 : d ≤ 32767)
    (hdz : 0 ≤ dz) (hvw : |v| + 1 ≤ |w|) (hw : |w| ≤ 32768) (hgt : 1 < axisFrac v dz d) :
    1 ≤ axisFrac w dz d * f32 (1 / axisFrac v dz d) := by
  have hdpos : (0 : ℚ) < (d : ℚ) := by exact_mod_cast (by omega : 0 < d)
  have hdle : (d : ℚ) ≤ 32767 := by exact_mod_cast hd2
  have hd1q : (1 : ℚ) ≤ (d : ℚ) := by exact_mod_cast hd1
  have hD : 0 ≤ f32 (dz * 32767) := f32_nonneg (by linarith)
  have hfle := axisFrac_le v hd1 hdz (by omega : |v| ≤ 32768)
  have hsmall : ∀ t : ℚ, 1 / 65536 ≤ t → (2 : ℚ) ^ (-126 : ℤ) ≤ t :=
    fun t ht => le_trans (by norm_num) ht
  unfold axisFrac at hgt hfle ⊢
  generalize f32 (dz * 32767) = D at hD hgt hfle ⊢
  have hab : ((|v| : Int) : ℚ) - D + 1 ≤ ((|w| : Int) : ℚ) - D := by
    have : ((|v| : Int) : ℚ) + 1 ≤ ((|w| : Int) : ℚ) := by exact_mod_cast hvw
    linarith
  have ha32 : ((|v| : Int) : ℚ) - D ≤ 32767 := by
    have : ((|v| : Int) : ℚ) ≤ 32767 := by exact_mod_cast (by omega : |v| ≤ 32767)
    linarith
  generalize ((|v| : Int) : ℚ) - D = a at hgt hfle hab ha32 ⊢
  generalize ((|w| : Int) : ℚ) - D = b at hab ⊢
  -- the numerator of the smaller fraction exceeds the divisor
  have hq1 : 1 < f32 a / d := by
    by_contra hc
    have := f32_le_of_le f32_one (not_lt.mp hc)
    linarith
  have hna : (d : ℚ) < f32 a := by
    rwa [lt_div_iff₀ hdpos, one_mul] at hq1
  have ha1 : 1 < a := by
    by_contra hc
    have := f32_le_of_le f32_one (not_lt.mp hc)
    linarith
  have hb2 : 2 < b := by linarith
  have e1 : f32 a ≤ a * (1 + 1 / 2 ^ 24) := f32_le_mul (hsmall _ (by linarith))
  have e2 : b * (1 - 1 / 2 ^ 24) ≤ f32 b := mul_le_f32 (hsmall _ (by linarith))
  have e3 : f32 (f32 a / d) ≤ f32 a / d * (1 + 1 / 2 ^ 24) :=
    f32_le_mul (hsmall _ (by linarith))
  have hnb : 1 < f32 b := by nlinarith
  have hqb : (1 : ℚ) / 65536 ≤ f32 b / d := by
    rw [le_div_iff₀ hdpos]
    linarith
  have e4 : f32 b / d * (1 - 1 / 2 ^ 24) ≤ f32 (f32 b / d) := mul_le_f32 (hsmall _ hqb)
  have hfx : 0 < f32 (f32 a / d) := by linarith
  have hinv : (1 : ℚ) / 65536 ≤ 1 / f32 (f32 a / d) := by
    rw [div_le_div_iff₀ (by norm_num) hfx]
    linarith
  have e5 : 1 / f32 (f32 a / d) * (1 - 1 / 2 ^ 24) ≤ f32 (1 / f32 (f32 a / d)) :=
    mul_le_f32 (hsmall _ hinv)
  -- the two fractions are separated by more than the rounding errors
  have key : a * (1 + 1 / 2 ^ 24) * (1 + 1 / 2 ^ 24) ≤
      b * (1 - 1 / 2 ^ 24) * (1 - 1 / 2 ^ 24) * (1 - 1 / 2 ^ 24) := by
    nlinarith
  have s1 : f32 (f32 a / d) ≤ a * (1 + 1 / 2 ^ 24) * (1 + 1 / 2 ^ 24) / d := by
    have : f32 a / d ≤ a * (1 + 1 / 2 ^ 24) / d := div_le_div_of_nonneg_right e1 hdpos.le
    calc f32 (f32 a / d) ≤ f32 a / d * (1 + 1 / 2 ^ 24) := e3
      _ ≤ a * (1 + 1 / 2 ^ 24) / d * (1 + 1 / 2 ^ 24) :=
          mul_le_mul_of_nonneg_right this (by norm_num)
      _ = a * (1 + 1 / 2 ^ 24) * (1 + 1 / 2 ^ 24) / d := by ring
  have s2 : b * (1 - 1 / 2 ^ 24) * (1 - 1 / 2 ^ 24) * (1 - 1 / 2 ^ 24) / d ≤
      f32 (f32 b / d) * (1 - 1 / 2 ^ 24) := by
    have : b * (1 - 1 / 2 ^ 24) / d ≤ f32 b / d := div_le_div_of_nonneg_right e2 hdpos.le
    calc b * (1 - 1 / 2 ^ 24) * (1 - 1 / 2 ^ 24) * (1 - 1 / 2 ^ 24) / d
        = b * (1 - 1 / 2 ^ 24) / d * (1 - 1 / 2 ^ 24) * (1 - 1 / 2 ^ 24) := by ring
      _ ≤ f32 b / d * (1 - 1 / 2 ^ 24) * (1 - 1 / 2 ^ 24) :=
          mul_le_mul_of_nonneg_right (mul_le_mul_of_nonneg_right this (by norm_num))
            (by norm_num)
      _ ≤ f32 (f32 b / d) * (1 - 1 / 2 ^ 24) := mul_le_mul_of_nonneg_right e4 (by norm_num)
  have s3 : f32 (f32 a / d) ≤ f32 (f32 b / d) * (1 - 1 / 2 ^ 24) :=
    le_trans s1 (le_trans (div_le_div_of_nonneg_right key hdpos.le) s2)
  have hfy : 0 < f32 (f32 b / d) := by
    have : (0 : ℚ) < f32 b / d * (1 - 1 / 2 ^ 24) := by
      apply mul_pos _ (by norm_num)
      linarith
    linarith
  calc (1 : ℚ) = f32 (f32 a / d) * (1 / f32 (f32 a / d)) := by
        field_simp
    _ ≤ f32 (f32 b / d) * (1 - 1 / 2 ^ 24) * (1 / f32 (f32 a / d)) :=
        mul_le_mul_of_nonneg_right s3 (by positivity)
    _ = f32 (f32 b / d) * (1 / f32 (f32 a / d) * (1 - 1 / 2 ^ 24)) := by ring
    _ ≤ f32 (f32 b / d) * f32 (1 / f32 (f32 a / d)) :=
        mul_le_mul_of_nonneg_left e5 hfy.le

theorem axisOut_trunc_abs_le (v : Int) {f : ℚ} (hf : f ≤ 1) :
    |truncQ (axisOut v f)| ≤ 32767 := by
  have b := axisOut_bounds v hf
  have a1 : truncQ (axisOut v f) ≤ 32767 := truncQ_le_of_le (by exact_mod_cast b.2) (by norm_num)
  have a2 : (-32767 : Int) ≤ truncQ (axisOut v f) :=
    truncQ_ge_of_ge (by exact_mod_cast b.1) (by norm_num)
  exact abs_le.mpr ⟨a2, a1⟩

theorem axisOut_trunc_full {v : Int} (hv : v ≠ 0) : |truncQ (axisOut v 1)| = 32767 := by
  have hval : f32 (f32 1 * 32767) = (((32767 : Int)) : ℚ) := by
    rw [f32_one, one_mul, f32_32767]
    norm_num
  rcases lt_or_gt_of_ne hv with h | h
  · rw [axisOut_of_neg h one_pos, hval]
    have : (-(((32767 : Int)) : ℚ)) = (((-32767 : Int)) : ℚ) := by norm_num
    rw [this, truncQ_intCast]
    rfl
  · rw [axisOut_of_pos h one_pos, hval, truncQ_intCast]
    rfl

theorem axisOut_trunc_sign (v : Int) (f : ℚ) :
    truncQ (axisOut v f) = 0 ∨ (0 < truncQ (axisOut v f) ∧ 0 < v) ∨
      (truncQ (axisOut v f) < 0 ∧ v < 0) := by
  rcases le_or_lt f 0 with h0 | h0
  · left; rw [axisOut_of_nonpos v h0, truncQ_zero]
  · have hs : 0 ≤ f32 (f32 f * 32767) :=
      f32_nonneg (mul_nonneg (f32_nonneg h0.le) (by norm_num))
    rcases lt_trichotomy v 0 with hv | hv | hv
    · have hn : truncQ (axisOut v f) ≤ 0 := by
        rw [axisOut_of_neg hv h0]
        exact truncQ_nonpos (by linarith)
      rcases eq_or_lt_of_le hn with h | h
      · left; exact h
      · right; right; exact ⟨h, hv⟩
    · subst hv; left; rw [axisOut_zero, truncQ_zero]
    · have hn : 0 ≤ truncQ (axisOut v f) := by
        rw [axisOut_of_pos hv h0]
        exact truncQ_nonneg hs
      rcases eq_or_lt_of_le hn with h | h
      · left; exact h.symm
      · right; left; exact ⟨h, hv⟩

theorem scale_and_limit_full (x y : Int) (dz edge : ℚ)
    (hx : |x| ≤ 32768) (hy : |y| ≤ 32768)
    (hdz : 0 ≤ dz) (hlt : dz < edge) (he : edge ≤ 1)
    (hne : truncQ (bandF dz edge) ≠ 0)
    (hbig : edge * 32767 ≤ (((max |x| |y|) : Int) : ℚ)) :
    ∃ r, scale_and_limit x y dz edge = some r ∧
      max |r.x| |r.y| = 32767 ∧
      (r.x = 0 ∨ (0 < r.x ∧ 0 < x) ∨ (r.x < 0 ∧ x < 0)) ∧
      (r.y = 0 ∨ (0 < r.y ∧ 0 < y) ∨ (r.y < 0 ∧ y < 0)) := by
  obtain ⟨h1, h2, _⟩ := band_divisor hdz hlt.le he hne
  obtain ⟨ds, hds⟩ := scale_and_limit_value x y dz edge _ rfl h1 h2
  refine ⟨_, hds, ?_, axisOut_trunc_sign _ _, axisOut_trunc_sign _ _⟩
  show max |truncQ _| |truncQ _| = 32767
  have epos : 0 < edge * 32767 := by nlinarith
  rcases le_or_lt |y| |x| with hxy | hxy
  · rw [max_eq_left hxy] at hbig
    have hx0 : x ≠ 0 := by
      intro h
      rw [h] at hbig
      simp at hbig
      linarith
    have hfx := axisFrac_ge_one x hx h1 hbig
    have hle := axisFrac_mono dz h1 hxy
    have hup := axisFrac_le x h1 hdz hx
    rw [limitFx_full hfx hle (by linarith), axisOut_trunc_full hx0]
    exact max_eq_left (axisOut_trunc_abs_le y (limitFy_le_one _ _))
  · rw [max_eq_right hxy.le] at hbig
    have hy0 : y ≠ 0 := by
      intro h
      rw [h] at hbig
      simp at hbig
      linarith
    have hfy := axisFrac_ge_one y hy h1 hbig
    rw [limitFy_full hfy (fun hgt => axisFrac_gap h1 h2 hdz (by omega) hy hgt),
      axisOut_trunc_full hy0]
    exact max_eq_right (axisOut_trunc_abs_le x (limitFx_le_one _ _))

theorem le_truncQ {q : ℚ} {n : Int} (h : (n : ℚ) ≤ q) (hn : 0 ≤ n) : n ≤ truncQ q := by
  have hq : (0 : ℚ) ≤ q := le_trans (by exact_mod_cast hn) h
  unfold truncQ
  rw [if_pos hq]
  exact Int.le_floor.mpr h

theorem f32_eval {q : ℚ} (k n : ℤ) (hk : -126 ≤ k) (h1 : 2 ^ k ≤ q) (h2 : q < 2 ^ (k + 1))
    (hn1 : (n : ℚ) - 1 / 2 < q / 2 ^ (k - 23)) (hn2 : q / 2 ^ (k - 23) < n + 1 / 2) :
    f32 q = n * 2 ^ (k - 23) := by
  have hq : 0 < q := lt_of_lt_of_le (two_zpow_pos k) h1
  have hlog : Int.log 2 q = k := by
    have a := le_log_of_two_zpow_le hq h1
    have b := log_lt_of_lt_two_zpow hq h2
    omega
  have he : f32Exp q = k - 23 := by
    unfold f32Exp
    rw [hlog]
    exact max_eq_left (by omega)
  rw [f32_of_nonneg hq.le]
  unfold f32Mag
  rw [he, roundNE_eq_of_near hn1 hn2]

theorem f32_rep_int (n : Int) (k : ℤ) (hn : n.natAbs < 2 ^ 24) (hk : -149 ≤ k) :
    f32 ((n : ℚ) * 2 ^ k) = (n : ℚ) * 2 ^ k := by
  have hr := f32_rep n.natAbs k hn hk
  rcases Int.natAbs_eq n with e | e
  · have c : (n : ℚ) = ((n.natAbs : ℕ) : ℚ) := by
      rw [← Int.cast_natCast, ← e]
    rw [c]
    exact hr
  · have c : (n : ℚ) = -((n.natAbs : ℕ) : ℚ) := by
      rw [← Int.cast_natCast, ← Int.cast_neg, ← e]
    rw [c, neg_mul, f32_neg, hr]

theorem threshold_eq (val : Int) (cutoff : ℚ) :
    threshold val cutoff = if ((|val| : Int) : ℚ) ≤ f32 (cutoff * 32767) then 0 else val := by
  unfold threshold
  by_cases hv : val < 0
  · have habs : ((|val| : Int) : ℚ) = -(val : ℚ) := by
      rw [abs_of_neg hv]; push_cast; rfl
    rw [if_pos hv, habs]
    by_cases h : (val : ℚ) ≥ -f32 (cutoff * 32767)
    · rw [if_pos h, if_pos (by linarith)]
    · rw [if_neg h, if_neg (by intro h2; exact h (by linarith))]
  · have habs : ((|val| : Int) : ℚ) = (val : ℚ) := by
      rw [abs_of_nonneg (not_lt.mp hv)]
    rw [if_neg hv, habs]

/-! ## Facts on the session -/

theorem con_close_of_initialized_some (s : Session) (h : Nat)
    (hi : s.initialized = true) (hc : s.con = some h) :
    con_close s = { s with con := none, joy_inst := -1,
                           calls := s.calls ++ [SdlCall.closeGamepad h] } := by
  rcases s with ⟨ini, con, ji, calls⟩
  simp only at hi hc
  subst hi hc
  rfl

theorem con_close_of_none (s : Session) (hc : s.con = none) : con_close s = s := by
  rcases s with ⟨ini, con, ji, calls⟩
  simp only at hc
  subst hc
  cases ini <;> rfl

theorem con_close_initialized (s : Session) : (con_close s).initialized = s.initialized := by
  rcases s with ⟨ini, con, ji, calls⟩
  cases ini <;> cases con <;> rfl

theorem con_close_con (s : Session) : (con_close s).con = none := by
  rcases s with ⟨ini, con, ji, calls⟩
  cases ini <;> cases con <;> rfl

theorem try_init_inv (initOk : Bool) (s : Session) (h : SessionInv s) :
    SessionInv (try_init initOk s) := by
  rcases s with ⟨ini, con, ji, calls⟩
  cases ini
  · have hc : con = none := h.2 rfl
    subst hc
    cases initOk
    · exact h
    · exact ⟨h.1, fun h0 => rfl⟩
  · exact h

theorem con_close_inv (s : Session) (h : SessionInv s) : SessionInv (con_close s) := by
  rcases s with ⟨ini, con, ji, calls⟩
  cases con with
  | none => rw [con_close_of_none _ rfl]; exact h
  | some c =>
    cases ini
    · have := h.2 rfl
      simp at this
    · rw [con_close_of_initialized_some _ c rfl rfl]
      exact ⟨by simp, fun _ => rfl⟩

theorem deinit_inv (s : Session) (h : SessionInv s) : SessionInv (deinit s) := by
  unfold deinit
  cases hi : s.initialized
  · exact h
  · have h1 := con_close_inv s h
    have h2 := con_close_con s
    simp only [Bool.not_true, Bool.false_eq_true, if_false]
    exact ⟨by simpa [h2] using h1.1, fun _ => h2⟩

theorem con_open_scan_spec (js : List Joystick) :
    ∀ s : Session, s.initialized = true → s.con = none →
      (con_open_scan js s).initialized = true ∧
      (con_open_scan js s).calls = s.calls ++ scanCalls js ∧
      (con_open_scan js s).con = (js.findSome? viable).map Gamepad.handle ∧
      (∀ g, js.findSome? viable = some g → (con_open_scan js s).joy_inst = toInt32 g.inst) ∧
      (js.findSome? viable = none → (con_open_scan js s).joy_inst = s.joy_inst ∨
        (con_open_scan js s).joy_inst = -1) := by
  induction js with
  | nil =>
    intro s hi hc
    simp [con_open_scan, scanCalls, hi, hc]
  | cons j rest ih =>
    intro s hi hc
    rcases j with ⟨gp, op⟩
    cases gp with
    | false =>
      have hv : viable ⟨false, op⟩ = none := by simp [viable]
      simpa [con_open_scan, scanCalls, List.findSome?_cons, hv] using ih s hi hc
    | true =>
      cases op with
      | none =>
        have hv : viable ⟨true, none⟩ = none := by simp [viable]
        have hs : ({ s with con := none } : Session) = s := by
          rcases s with ⟨ini, con, ji, calls⟩
          simp only at hc
          subst hc
          rfl
        simpa [con_open_scan, scanCalls, List.findSome?_cons, hv, hs] using ih s hi hc
      | some g =>
        rcases g with ⟨h, inst, mp⟩
        cases mp with
        | some m =>
          have hv : viable ⟨true, some ⟨h, inst, some m⟩⟩ = some ⟨h, inst, some m⟩ := by
            simp [viable]
          simp [con_open_scan, scanCalls, List.findSome?_cons, hv, hi]
        | none =>
          have hv : viable ⟨true, some ⟨h, inst, none⟩⟩ = none := by simp [viable]
          have hcl : con_close
              { s with
                con := some h
                joy_inst := toInt32 inst
                calls := s.calls ++ [SdlCall.openGamepad h] } =
              { s with
                con := none
                joy_inst := -1
                calls := s.calls ++ [SdlCall.openGamepad h] ++ [SdlCall.closeGamepad h] } :=
            con_close_of_initialized_some _ h hi rfl
          have key := ih
            { s with
              con := none
              joy_inst := -1
              calls := s.calls ++ [SdlCall.openGamepad h] ++ [SdlCall.closeGamepad h] } hi rfl
          simp only [con_open_scan, scanCalls, List.findSome?_cons, hv, hcl]
          simp only [Bool.not_true, Bool.false_eq_true, if_false, if_true, Option.isSome_none]
          refine ⟨key.1, ?_, key.2.2.1, key.2.2.2.1, fun hn => Or.inr ?_⟩
          · rw [key.2.1]; simp
          · rcases key.2.2.2.2 hn with h1 | h1 <;> exact h1

theorem con_open_eq_scan (initOk connected : Bool) (joysticks : Option (List Joystick))
    (s : Session) (hi : s.initialized = true) (hc : s.con = none ∨ connected = false) :
    con_open initOk connected joysticks s = con_open_scan (joysticks.getD []) (con_close s) := by
  unfold con_open
  simp only [hi, Bool.not_true, Bool.false_eq_true, if_false]
  cases hcon : s.con with
  | none => simp only [con_close_of_none s hcon]
  | some h =>
    rcases hc with hc | hc
    · rw [hcon] at hc; cases hc
    · simp only [hc, Bool.false_eq_true, if_false]

theorem findSome_viable_of_split (pre : List Joystick) (j : Joystick) (post : List Joystick)
    (g : Gamepad) (hpre : ∀ p ∈ pre, viable p = none) (hj : viable j = some g) :
    (pre ++ j :: post).findSome? viable = some g := by
  induction pre with
  | nil => simp [List.findSome?_cons, hj]
  | cons p ps ih =>
    have hp : viable p = none := hpre p (List.mem_cons_self _ _)
    simp only [List.cons_append, List.findSome?_cons, hp]
    exact ih (fun q hq => hpre q (List.mem_cons_of_mem _ hq))

theorem findSome_viable_none (js : List Joystick) (h : ∀ p ∈ js, viable p = none) :
    js.findSome? viable = none := by
  induction js with
  | nil => rfl
  | cons p ps ih =>
    have hp : viable p = none := h p (List.mem_cons_self _ _)
    simp only [List.findSome?_cons, hp]
    exact ih (fun q hq => h q (List.mem_cons_of_mem _ hq))

theorem scanCalls_split (pre rest : List Joystick) (hpre : ∀ p ∈ pre, viable p = none) :
    ∃ c, scanCalls (pre ++ rest) = c ++ scanCalls rest := by
  induction pre with
  | nil => exact ⟨[], rfl⟩
  | cons p ps ih =>
    obtain ⟨c, hc⟩ := ih (fun q hq => hpre q (List.mem_cons_of_mem _ hq))
    have hp : viable p = none := hpre p (List.mem_cons_self _ _)
    rcases p with ⟨gp, op⟩
    cases gp with
    | false => exact ⟨c, by simpa [scanCalls] using hc⟩
    | true =>
      cases op with
      | none => exact ⟨c, by simpa [scanCalls] using hc⟩
      | some g =>
        rcases g with ⟨h, inst, mp⟩
        cases mp with
        | some m => simp [viable] at hp
        | none =>
          refine ⟨SdlCall.openGamepad h :: SdlCall.closeGamepad h :: c, ?_⟩
          simp [scanCalls, hc]

theorem viable_opened {j : Joystick} {g : Gamepad} (h : viable j = some g) :
    j.opened = some g := by
  rcases j with ⟨gp, op⟩
  cases gp with
  | false => simp [viable] at h
  | true =>
    cases op with
    | none => simp [viable] at h
    | some g1 =>
      cases hm : g1.mapping with
      | none => simp [viable, hm] at h
      | some m =>
        simp [viable, hm] at h
        rw [h]

theorem ids_of_findSome {js : List Joystick} {g : Gamepad} (hok : joysticksIdsOk js = true)
    (h : js.findSome? viable = some g) : toInt32 g.inst ≠ -1 := by
  obtain ⟨j, hj, hv⟩ := List.exists_of_findSome?_eq_some h
  have ho := viable_opened hv
  unfold joysticksIdsOk at hok
  rw [List.all_eq_true] at hok
  have := hok j hj
  rw [ho] at this
  simpa using this

theorem con_open_scan_inv (js : List Joystick) (s : Session) (hi : s.initialized = true)
    (hc : s.con = none) (hj : s.joy_inst = -1) (hok : joysticksIdsOk js = true) :
    SessionInv (con_open_scan js s) ∧ (con_open_scan js s).initialized = true := by
  obtain ⟨h1, _, h3, h4, h5⟩ := con_open_scan_spec js s hi hc
  refine ⟨⟨?_, fun h0 => ?_⟩, h1⟩
  · cases hf : js.findSome? viable with
    | none =>
      have hj2 : (con_open_scan js s).joy_inst = -1 := by
        rcases h5 hf with h | h
        · rw [h, hj]
        · exact h
      rw [h3, hf, hj2]
      simp
    | some g =>
      rw [h3, hf, h4 g hf]
      simpa using ids_of_findSome hok hf
  · rw [h1] at h0
    cases h0

theorem con_open_inv (initOk connected : Bool) (joysticks : Option (List Joystick))
    (s : Session) (h : SessionInv s) (hok : joysticksIdsOk (joysticks.getD []) = true) :
    SessionInv (con_open initOk connected joysticks s) ∧
      (s.initialized = true → (con_open initOk connected joysticks s).initialized = true) := by
  have hscan : ∀ t : Session, SessionInv t → t.initialized = true →
      SessionInv (con_open_scan (joysticks.getD []) (con_close t)) ∧
      (con_open_scan (joysticks.getD []) (con_close t)).initialized = true := by
    intro t ht hti
    have hcc := con_close_con t
    have hci : (con_close t).initialized = true := by rw [con_close_initialized, hti]
    have hcj : (con_close t).joy_inst = -1 := by
      have := (con_close_inv t ht).1
      rw [hcc] at this
      by_contra hne
      have := this.mpr hne
      simp at this
    exact con_open_scan_inv _ _ hci hcc hcj hok
  unfold con_open
  cases hi : s.initialized with
  | true =>
    simp only [Bool.not_true, Bool.false_eq_true, if_false, hi]
    cases hcon : s.con with
    | none =>
      have := hscan s h hi
      rw [con_close_of_none s hcon] at this
      exact ⟨this.1, fun _ => this.2⟩
    | some c =>
      cases connected with
      | true => simp only [if_true]; exact ⟨h, fun _ => hi⟩
      | false =>
        simp only [Bool.false_eq_true, if_false]
        have := hscan s h hi
        exact ⟨this.1, fun _ => this.2⟩
  | false =>
    simp only [Bool.not_false, if_true]
    have hti := try_init_inv initOk s h
    cases hi2 : (try_init initOk s).initialized with
    | false =>
      simp only [Bool.not_false, if_true]
      exact ⟨hti, fun h0 => by cases h0⟩
    | true =>
      simp only [Bool.not_true, Bool.false_eq_true, if_false]
      have hcn : (try_init initOk s).con = none := by
        have : s.con = none := h.2 hi
        unfold try_init
        simp only [hi, Bool.false_eq_true, if_false]
        cases initOk <;> simpa using this
      rw [hcn]
      have := hscan _ hti hi2
      rw [con_close_of_none _ hcn] at this
      exact ⟨this.1, fun h0 => by cases h0⟩

theorem handle_event_inv (s : Session) (e : Event) (h : SessionInv s)
    (hok : eventIdsOk e = true) :
    SessionInv (handle_event s e) ∧
      (s.initialized = true → (handle_event s e).initialized = true) := by
  cases e with
  | added initOk connected joysticks => exact con_open_inv initOk connected joysticks s h hok
  | removed which =>
    unfold handle_event
    by_cases hw : which = toUInt32 s.joy_inst
    · simp only [hw, if_true]
      exact ⟨con_close_inv s h, fun hi => by rw [con_close_initialized, hi]⟩
    · simp only [hw, if_false]
      exact ⟨h, fun hi => hi⟩
  | other => exact ⟨h, fun hi => hi⟩

theorem foldl_handle_event_inv (events : List Event) :
    ∀ s : Session, SessionInv s → events.all eventIdsOk = true →
      SessionInv (events.foldl handle_event s) ∧
      (s.initialized = true → (events.foldl handle_event s).initialized = true) := by
  induction events with
  | nil => intro s h _; exact ⟨h, fun hi => hi⟩
  | cons e es ih =>
    intro s h hok
    rw [List.all_cons, Bool.and_eq_true] at hok
    have h1 := handle_event_inv s e h hok.1
    have h2 := ih (handle_event s e) h1.1 hok.2
    exact ⟨h2.1, fun hi => h2.2 (h1.2 hi)⟩

theorem foldl_handle_event_initialized (events : List Event) :
    ∀ s : Session, s.initialized = true → (events.foldl handle_event s).initialized = true := by
  induction events with
  | nil => intro s hi; exact hi
  | cons e es ih =>
    intro s hi
    refine ih _ ?_
    cases e with
    | added initOk connected joysticks =>
      show (con_open initOk connected joysticks s).initialized = true
      unfold con_open
      simp only [hi, Bool.not_true, Bool.false_eq_true, if_false]
      cases hcon : s.con with
      | none => exact (con_open_scan_spec _ s hi hcon).1
      | some c =>
        cases connected with
        | true => exact hi
        | false =>
          exact (con_open_scan_spec _ (con_close s)
            (by rw [con_close_initialized, hi]) (con_close_con s)).1
    | removed which =>
      unfold handle_event
      by_cases hw : which = toUInt32 s.joy_inst
      · simp only [hw, if_true]
        rw [con_close_initialized, hi]
      · simp only [hw, if_false]
        exact hi
    | other => exact hi

theorem con_get_inputs_of_initialized (initOk : Bool) (events : List Event) (pad : Pad)
    (s : Session) (i : inputs_t) (hi : s.initialized = true) :
    (con_get_inputs initOk events pad s i).1 = events.foldl handle_event s := by
  unfold con_get_inputs
  simp only [hi, Bool.not_true, Bool.false_eq_true, if_false]
  have := foldl_handle_event_initialized events s hi
  split <;> rfl

theorem con_get_inputs_inv (initOk : Bool) (events : List Event) (pad : Pad)
    (s : Session) (i : inputs_t) (h : SessionInv s) (hok : events.all eventIdsOk = true) :
    SessionInv (con_get_inputs initOk events pad s i).1 := by
  cases hi : s.initialized with
  | true =>
    rw [con_get_inputs_of_initialized initOk events pad s i hi]
    exact (foldl_handle_event_inv events s h hok).1
  | false =>
    have hti := try_init_inv initOk s h
    unfold con_get_inputs
    simp only [hi, Bool.not_false, if_true]
    cases hi2 : (try_init initOk s).initialized with
    | false => simp only [Bool.not_false, if_true]; exact hti
    | true =>
      simp only [Bool.not_true, Bool.false_eq_true, if_false]
      have := (foldl_handle_event_inv events _ hti hok).1
      split <;> exact this

theorem op_run_inv (s : Session) (op : Op) (h : SessionInv s) (hok : opIdsOk op = true) :
    SessionInv (op.run s) := by
  cases op with
  | try_init initOk => exact try_init_inv initOk s h
  | con_open initOk connected joysticks => exact (con_open_inv initOk connected joysticks s h hok).1
  | con_close => exact con_close_inv s h
  | deinit => exact deinit_inv s h
  | con_get_inputs initOk events pad i => exact con_get_inputs_inv initOk events pad s i h hok

theorem foldl_op_run_inv (ops : List Op) :
    ∀ s : Session, SessionInv s → ops.all opIdsOk = true → SessionInv (ops.foldl Op.run s) := by
  induction ops with
  | nil => intro s h _; exact h
  | cons op rest ih =>
    intro s h hok
    rw [List.all_cons, Bool.and_eq_true] at hok
    exact ih _ (op_run_inv s op h hok.1) hok.2

/-! ## Claims on the axis normaliser -/

/-- C1, as stated, fails in two ways.  On the boundary: with `cutoff = 1` the
value `32767` has magnitude exactly `cutoff * 32767`, which the claim lets pass
unchanged, and `threshold` returns `0`.  And by rounding: with
`cutoff = 32769/65536` the value `16384` is beyond the exact product
`16384 - 2^-16`, but the binary32 product is `16384` and `threshold` returns `0`. -/
theorem threshold_boundary_counterexample :
    ((0 : ℚ) ≤ 1 ∧ (1 : ℚ) ≤ 1 ∧ (-32768 : Int) ≤ 32767 ∧ (32767 : Int) ≤ 32767 ∧
      (1 : ℚ) * 32767 ≤ ((|(32767 : Int)| : Int) : ℚ) ∧
      threshold 32767 1 = 0 ∧ threshold 32767 1 ≠ 32767) ∧
    ((0 : ℚ) ≤ 32769 / 65536 ∧ (32769 / 65536 : ℚ) ≤ 1 ∧
      f32 (32769 / 65536) = 32769 / 65536 ∧
      (32769 / 65536 : ℚ) * 32767 < ((|(16384 : Int)| : Int) : ℚ) ∧
      threshold 16384 (32769 / 65536) = 0 ∧ threshold 16384 (32769 / 65536) ≠ 16384) := by
  have h : threshold 32767 1 = 0 := by
    rw [threshold_eq, if_pos]
    rw [one_mul, f32_32767]
    norm_num
  have hp : f32 ((32769 / 65536 : ℚ) * 32767) = 16384 := by
    rw [f32_eval 13 16777216 (by norm_num) (by norm_num) (by norm_num) (by norm_num)
      (by norm_num)]
    norm_num
  have h2 : threshold 16384 (32769 / 65536) = 0 := by
    rw [threshold_eq, if_pos]
    rw [hp]
    norm_num
  have hrep : f32 (32769 / 65536 : ℚ) = 32769 / 65536 := by
    have := f32_rep 32769 (-16) (by norm_num) (by norm_num)
    norm_num at this ⊢
    exact this
  refine ⟨⟨by norm_num, by norm_num, by norm_num, by norm_num, by norm_num, h, ?_⟩,
    ⟨by norm_num, by norm_num, hrep, by norm_num, h2, ?_⟩⟩
  · rw [h]; norm_num
  · rw [h2]; norm_num

/-- C1, amended: `threshold val cutoff` is `0` when `|val|` is at most the
binary32 product `cutoff * 32767` and is `val` when `|val|` is beyond that
product.  In terms of the exact product, for a 16-bit `val`: it is `0` whenever
`|val| <= cutoff * 32767`, and `val` whenever `|val| >= cutoff * 32767 + 1/512`.
With `cutoff = 0.5` the inputs `16000`, `20000`, `-16000`, `-20000` give `0`,
`20000`, `0`, `-20000`. -/
theorem threshold_spec :
    (∀ (val : Int) (cutoff : ℚ),
      ((((|val| : Int) : ℚ) ≤ f32 (cutoff * 32767)) → threshold val cutoff = 0) ∧
      ((f32 (cutoff * 32767) < ((|val| : Int) : ℚ)) → threshold val cutoff = val)) ∧
    (∀ (val : Int) (cutoff : ℚ), -32768 ≤ val → val ≤ 32767 →
      ((((|val| : Int) : ℚ) ≤ cutoff * 32767) → threshold val cutoff = 0) ∧
      ((cutoff * 32767 + 1 / 512 ≤ ((|val| : Int) : ℚ)) → threshold val cutoff = val)) ∧
    threshold 16000 (1 / 2) = 0 ∧ threshold 20000 (1 / 2) = 20000 ∧
    threshold (-16000) (1 / 2) = 0 ∧ threshold (-20000) (1 / 2) = -20000 := by
  have hcode : ∀ (val : Int) (cutoff : ℚ),
      ((((|val| : Int) : ℚ) ≤ f32 (cutoff * 32767)) → threshold val cutoff = 0) ∧
      ((f32 (cutoff * 32767) < ((|val| : Int) : ℚ)) → threshold val cutoff = val) := by
    intro val cutoff
    rw [threshold_eq]
    exact ⟨fun h => if_pos h, fun h => if_neg (not_le.mpr h)⟩
  have hhalf : f32 ((1 / 2 : ℚ) * 32767) = 32767 / 2 := by
    have := f32_rep 32767 (-1) (by norm_num) (by norm_num)
    norm_num at this ⊢
    exact this
  refine ⟨hcode, ?_, ?_, ?_, ?_, ?_⟩
  · intro val cutoff hlo hhi
    have hv : |val| ≤ 32768 := abs_le.mpr ⟨by omega, by omega⟩
    refine ⟨fun h => (hcode val cutoff).1 (le_f32_of_le (abs_rep val hv) h), fun h => ?_⟩
    refine (hcode val cutoff).2 ?_
    have hr : f32 (((|val| : Int) : ℚ) - 1 / 512) = ((|val| : Int) : ℚ) - 1 / 512 := by
      have h0 := abs_nonneg val
      have := f32_rep_int (|val| * 512 - 1) (-9) (by omega) (by norm_num)
      have e : (((|val| * 512 - 1 : Int) : Int) : ℚ) * 2 ^ (-9 : ℤ) =
          ((|val| : Int) : ℚ) - 1 / 512 := by
        rw [Int.cast_sub, Int.cast_mul]
        norm_num
        ring
      rw [e] at this
      exact this
    have := f32_le_of_le hr (by linarith : cutoff * 32767 ≤ ((|val| : Int) : ℚ) - 1 / 512)
    linarith
  · exact (hcode 16000 (1 / 2)).1 (by rw [hhalf]; norm_num)
  · exact (hcode 20000 (1 / 2)).2 (by rw [hhalf]; norm_num)
  · exact (hcode (-16000) (1 / 2)).1 (by rw [hhalf]; norm_num)
  · exact (hcode (-20000) (1 / 2)).2 (by rw [hhalf]; norm_num)

/-- Witness of `threshold_spec` at `val = 30000`, `cutoff = 0.25` and at
`val = -8000`, `cutoff = 0.25`. -/
theorem threshold_spec_witness :
    ((-32768 : Int) ≤ 30000 ∧ (30000 : Int) ≤ 32767 ∧
      (1 / 4 : ℚ) * 32767 + 1 / 512 ≤ ((|(30000 : Int)| : Int) : ℚ) ∧
      threshold 30000 (1 / 4) = 30000) ∧
    ((-32768 : Int) ≤ -8000 ∧ (-8000 : Int) ≤ 32767 ∧
      (((|(-8000 : Int)| : Int) : ℚ) ≤ (1 / 4 : ℚ) * 32767) ∧ threshold (-8000) (1 / 4) = 0) :=
  ⟨⟨by norm_num, by norm_num, by norm_num,
    (threshold_spec.2.1 30000 (1 / 4) (by norm_num) (by norm_num)).2 (by norm_num)⟩,
   ⟨by norm_num, by norm_num, by norm_num,
    (threshold_spec.2.1 (-8000) (1 / 4) (by norm_num) (by norm_num)).1 (by norm_num)⟩⟩

/-- C6, as stated, fails when `min > max`: for `v = 4`, `min = 5`, `max = 3` the
claim asks for `max` (since `v >= max`), and `sclamp` returns `min`. -/
theorem sclamp_inverted_counterexample :
    (-32768 : Int) ≤ 3 ∧ (5 : Int) ≤ 32767 ∧ (4 : Int) ≥ 3 ∧
      sclamp 4 5 3 = 5 ∧ sclamp 4 5 3 ≠ 3 := by
  decide

/-- C6, amended: `sclamp v min max` returns `min` whenever `v <= min`, returns
`max` whenever `v > min` and `v >= max`, and returns `v` otherwise; hence, when
`min <= max`, it returns `max` whenever `v >= max`. -/
theorem sclamp_spec (v min max : Int) :
    (v ≤ min → sclamp v min max = min) ∧
    (min < v → max ≤ v → sclamp v min max = max) ∧
    (min < v → v < max → sclamp v min max = v) ∧
    (min ≤ max → max ≤ v → sclamp v min max = max) := by
  unfold sclamp
  refine ⟨fun h => ?_, fun h1 h2 => ?_, fun h1 h2 => ?_, fun h1 h2 => ?_⟩
  · rw [if_pos h]
  · rw [if_neg (by omega), if_pos (by omega)]
  · rw [if_neg (by omega), if_neg (by omega)]
  · by_cases h : v ≤ min
    · rw [if_pos h]; omega
    · rw [if_neg h, if_pos (by omega)]

/-- Witness of `sclamp_spec` at `v = 10`, `min = -5`, `max = 7`. -/
theorem sclamp_spec_witness : (-5 : Int) < 10 ∧ (7 : Int) ≤ 10 ∧ sclamp 10 (-5) 7 = 7 :=
  ⟨by decide, by decide, (sclamp_spec 10 (-5) 7).2.1 (by decide) (by decide)⟩

theorem bandF_narrow : bandF (1 / 2 ^ 14) (5 / 2 ^ 16) = 32767 / 65536 := by
  have hD : f32 ((1 / 2 ^ 14 : ℚ) * 32767) = 32767 / 16384 := by
    have := f32_rep 32767 (-14) (by norm_num) (by norm_num)
    norm_num at this ⊢
    exact this
  have hE : f32 ((5 / 2 ^ 16 : ℚ) * 32767) = 163835 / 65536 := by
    have := f32_rep 163835 (-16) (by norm_num) (by norm_num)
    norm_num at this ⊢
    exact this
  have hB : f32 (32767 / 65536 : ℚ) = 32767 / 65536 := by
    have := f32_rep 32767 (-16) (by norm_num) (by norm_num)
    norm_num at this ⊢
    exact this
  unfold bandF
  rw [hD, hE]
  have : (163835 / 65536 : ℚ) - 32767 / 16384 = 32767 / 65536 := by norm_num
  rw [this, hB]

theorem truncQ_bandF_narrow : truncQ (bandF (1 / 2 ^ 14) (5 / 2 ^ 16)) = 0 := by
  rw [bandF_narrow]
  exact truncQ_eq_of_floor (by norm_num) (by norm_num) (by norm_num)

theorem f32_tenths :
    0 ≤ f32 (1 / 10) ∧ f32 (1 / 10) ≤ 1 / 8 ∧ 7 / 8 ≤ f32 (9 / 10) ∧ f32 (9 / 10) ≤ 1 := by
  have r8 : f32 (1 / 8 : ℚ) = 1 / 8 := by
    have := f32_rep 1 (-3) (by norm_num) (by norm_num)
    norm_num at this ⊢
    exact this
  have r78 : f32 (7 / 8 : ℚ) = 7 / 8 := by
    have := f32_rep 7 (-3) (by norm_num) (by norm_num)
    norm_num at this ⊢
    exact this
  exact ⟨f32_nonneg (by norm_num), f32_le_of_le r8 (by norm_num),
    le_f32_of_le r78 (by norm_num), f32_le_of_le f32_one (by norm_num)⟩

theorem truncQ_bandF_of_bounds {dz edge : ℚ} (h1 : dz * 32767 ≤ 4096)
    (h2 : 28671 ≤ edge * 32767) : truncQ (bandF dz edge) ≠ 0 := by
  have r1 : f32 (4096 : ℚ) = 4096 := by simpa using f32_natCast 4096 (by norm_num)
  have r2 : f32 (28671 : ℚ) = 28671 := by simpa using f32_natCast 28671 (by norm_num)
  have r3 : f32 (24575 : ℚ) = 24575 := by simpa using f32_natCast 24575 (by norm_num)
  have hD := f32_le_of_le r1 h1
  have hE := le_f32_of_le r2 h2
  have hB : (24575 : ℚ) ≤ bandF dz edge := by
    unfold bandF
    exact le_f32_of_le r3 (by linarith)
  have : (24575 : Int) ≤ truncQ (bandF dz edge) := le_truncQ (by exact_mod_cast hB) (by norm_num)
  omega

theorem truncQ_bandF_tenths : truncQ (bandF (f32 (1 / 10)) (f32 (9 / 10))) ≠ 0 := by
  obtain ⟨a, b, c, d⟩ := f32_tenths
  exact truncQ_bandF_of_bounds (by linarith) (by linarith)

/-- C4, as stated, fails when the band between deadzone and edge is narrow:
with `dz = 2^-14` and `edge = 5 * 2^-16` the binary32 products are exact, their
difference is `32767/65536`, `div` is `0` and the sample is returned unchanged,
so `x = 1`, below `dz * 32767`, is not mapped to `0`. -/
theorem scale_deadzone_counterexample :
    (0 : ℚ) ≤ 1 / 2 ^ 14 ∧ (1 / 2 ^ 14 : ℚ) < 5 / 2 ^ 16 ∧ (5 / 2 ^ 16 : ℚ) ≤ 1 ∧
      ((|(1 : Int)| : Int) : ℚ) < (1 / 2 ^ 14 : ℚ) * 32767 ∧
      scale_and_limit 1 0 (1 / 2 ^ 14) (5 / 2 ^ 16) = some ⟨1, 0, []⟩ := by
  refine ⟨by norm_num, by norm_num, by norm_num, by norm_num, ?_⟩
  exact scale_and_limit_degenerate 1 0 _ _ truncQ_bandF_narrow

/-- C4, amended: for every sample and every `dz`, `edge` with
`0 <= dz < edge <= 1` for which the divisor `div` computed by the code (the
binary32 difference of the binary32 products `edge * 32767` and `dz * 32767`,
truncated) is not `0`, `scale_and_limit` returns and maps each axis whose
magnitude is below `dz * 32767` to `0`; and `scale_and_limit(0, 0, 0.1f, 0.9f)`
yields `(0, 0)`. -/
theorem scale_deadzone_spec :
    (∀ (x y : Int) (dz edge : ℚ), 0 ≤ dz → dz < edge → edge ≤ 1 →
      truncQ (f32 (f32 (edge * 32767) - f32 (dz * 32767))) ≠ 0 →
      ∃ r, scale_and_limit x y dz edge = some r ∧
        ((((|x| : Int) : ℚ) < dz * 32767) → r.x = 0) ∧
        ((((|y| : Int) : ℚ) < dz * 32767) → r.y = 0)) ∧
    (∃ r, scale_and_limit 0 0 (f32 (1 / 10)) (f32 (9 / 10)) = some r ∧ r.x = 0 ∧ r.y = 0) := by
  refine ⟨fun x y dz edge h1 h2 h3 h4 => scale_and_limit_deadzone x y dz edge h1 h2 h3 h4, ?_⟩
  obtain ⟨a, b, c, d⟩ := f32_tenths
  obtain ⟨r, hr, hx, hy⟩ := scale_and_limit_deadzone 0 0 (f32 (1 / 10)) (f32 (9 / 10)) a
    (by linarith) d truncQ_bandF_tenths
  have hpos : (0 : ℚ) < f32 (1 / 10) * 32767 := by
    have r16 : f32 (1 / 16 : ℚ) = 1 / 16 := by
      have := f32_rep 1 (-4) (by norm_num) (by norm_num)
      norm_num at this ⊢
      exact this
    have := le_f32_of_le r16 (by norm_num : (1 / 16 : ℚ) ≤ 1 / 10)
    linarith
  exact ⟨r, hr, hx (by simpa using hpos), hy (by simpa using hpos)⟩

/-- Witness of `scale_deadzone_spec` at `x = 100`, `y = -20000`, `dz = 0.1f`,
`edge = 0.9f`: the `x` axis is inside the deadzone. -/
theorem scale_deadzone_spec_witness :
    (0 : ℚ) ≤ f32 (1 / 10) ∧ f32 (1 / 10) < f32 (9 / 10) ∧ f32 (9 / 10) ≤ 1 ∧
      truncQ (f32 (f32 (f32 (9 / 10) * 32767) - f32 (f32 (1 / 10) * 32767))) ≠ 0 ∧
      ((|(100 : Int)| : Int) : ℚ) < f32 (1 / 10) * 32767 ∧
      ∃ r, scale_and_limit 100 (-20000) (f32 (1 / 10)) (f32 (9 / 10)) = some r ∧ r.x = 0 := by
  obtain ⟨a, b, c, d⟩ := f32_tenths
  have hx : ((|(100 : Int)| : Int) : ℚ) < f32 (1 / 10) * 32767 := by
    have r16 : f32 (1 / 16 : ℚ) = 1 / 16 := by
      have := f32_rep 1 (-4) (by norm_num) (by norm_num)
      norm_num at this ⊢
      exact this
    have := le_f32_of_le r16 (by norm_num : (1 / 16 : ℚ) ≤ 1 / 10)
    have e : ((|(100 : Int)| : Int) : ℚ) = 100 := by norm_num
    rw [e]
    linarith
  refine ⟨a, by linarith, d, truncQ_bandF_tenths, hx, ?_⟩
  obtain ⟨r, hr, h1, _⟩ := scale_deadzone_spec.1 100 (-20000) (f32 (1 / 10)) (f32 (9 / 10)) a
    (by linarith) d truncQ_bandF_tenths
  exact ⟨r, hr, h1 hx⟩

/-- C5, as stated, fails when the band between deadzone and edge is narrow:
with `dz = 2^-14` and `edge = 5 * 2^-16` the divisor `div` is `0` and the sample
is returned unchanged, so `x = 3`, above `edge * 32767`, is not brought to full
scale. -/
theorem scale_full_counterexample :
    (-32768 : Int) ≤ 3 ∧ (3 : Int) ≤ 32767 ∧
      (0 : ℚ) ≤ 1 / 2 ^ 14 ∧ (1 / 2 ^ 14 : ℚ) < 5 / 2 ^ 16 ∧ (5 / 2 ^ 16 : ℚ) ≤ 1 ∧
      (5 / 2 ^ 16 : ℚ) * 32767 ≤ (((max |(3 : Int)| |(0 : Int)|) : Int) : ℚ) ∧
      scale_and_limit 3 0 (1 / 2 ^ 14) (5 / 2 ^ 16) = some ⟨3, 0, []⟩ ∧
      max |(3 : Int)| |(0 : Int)| ≠ 32767 := by
  refine ⟨by norm_num, by norm_num, by norm_num, by norm_num, by norm_num, by norm_num, ?_,
    by norm_num⟩
  exact scale_and_limit_degenerate 3 0 _ _ truncQ_bandF_narrow

/-- C5, amended: for every sample of signed 16-bit values and every `dz`, `edge`
with `0 <= dz < edge <= 1` for which the divisor `div` computed by the code is
not `0`, if the larger of `|x|` and `|y|` is at or above `edge * 32767` then
`scale_and_limit` returns, the larger output magnitude is `32767`, and each
output axis is `0` or has the sign of the corresponding input axis. -/
theorem scale_full_spec (x y : Int) (dz edge : ℚ)
    (hxlo : -32768 ≤ x) (hxhi : x ≤ 32767) (hylo : -32768 ≤ y) (hyhi : y ≤ 32767)
    (hdz : 0 ≤ dz) (hlt : dz < edge) (he : edge ≤ 1)
    (hne : truncQ (f32 (f32 (edge * 32767) - f32 (dz * 32767))) ≠ 0)
    (hbig : edge * 32767 ≤ (((max |x| |y|) : Int) : ℚ)) :
    ∃ r, scale_and_limit x y dz edge = some r ∧
      max |r.x| |r.y| = 32767 ∧
      (r.x = 0 ∨ (0 < r.x ∧ 0 < x) ∨ (r.x < 0 ∧ x < 0)) ∧
      (r.y = 0 ∨ (0 < r.y ∧ 0 < y) ∨ (r.y < 0 ∧ y < 0)) :=
  scale_and_limit_full x y dz edge (abs_le.mpr ⟨by omega, by omega⟩)
    (abs_le.mpr ⟨by omega, by omega⟩) hdz hlt he hne hbig

/-- Witness of `scale_full_spec` at `x = 30000`, `y = -32768`, `dz = 0.1f`,
`edge = 0.9f`. -/
theorem scale_full_spec_witness :
    (0 : ℚ) ≤ f32 (1 / 10) ∧ f32 (1 / 10) < f32 (9 / 10) ∧ f32 (9 / 10) ≤ 1 ∧
      truncQ (f32 (f32 (f32 (9 / 10) * 32767) - f32 (f32 (1 / 10) * 32767))) ≠ 0 ∧
      f32 (9 / 10) * 32767 ≤ (((max |(30000 : Int)| |(-32768 : Int)|) : Int) : ℚ) ∧
      ∃ r, scale_and_limit 30000 (-32768) (f32 (1 / 10)) (f32 (9 / 10)) = some r ∧
        max |r.x| |r.y| = 32767 ∧
        (r.x = 0 ∨ (0 < r.x ∧ 0 < (30000 : Int)) ∨ (r.x < 0 ∧ (30000 : Int) < 0)) ∧
        (r.y = 0 ∨ (0 < r.y ∧ 0 < (-32768 : Int)) ∨ (r.y < 0 ∧ (-32768 : Int) < 0)) := by
  obtain ⟨a, b, c, d⟩ := f32_tenths
  have hbig : f32 (9 / 10) * 32767 ≤ (((max |(30000 : Int)| |(-32768 : Int)|) : Int) : ℚ) := by
    have e : (((max |(30000 : Int)| |(-32768 : Int)|) : Int) : ℚ) = 32768 := by norm_num
    rw [e]
    linarith
  exact ⟨a, by linarith, d, truncQ_bandF_tenths, hbig,
    scale_full_spec 30000 (-32768) (f32 (1 / 10)) (f32 (9 / 10)) (by norm_num) (by norm_num)
      (by norm_num) (by norm_num) a (by linarith) d truncQ_bandF_tenths hbig⟩

/-- C10: when `dz == edge`, `scale_and_limit` returns the sample unchanged and
executes no division. -/
theorem scale_degenerate_spec (x y : Int) (dz edge : ℚ) (h : dz = edge) :
    scale_and_limit x y dz edge = some ⟨x, y, []⟩ := by
  subst h
  exact scale_and_limit_degenerate x y dz dz
    (by unfold bandF; rw [sub_self, f32_zero]; exact truncQ_zero)

/-- Witness of `scale_degenerate_spec` at `x = 1234`, `y = -5678`,
`dz = edge = 0.3`. -/
theorem scale_degenerate_spec_witness :
    ((3 / 10 : ℚ) = 3 / 10) ∧
      scale_and_limit 1234 (-5678) (3 / 10) (3 / 10) = some ⟨1234, -5678, []⟩ :=
  ⟨rfl, scale_degenerate_spec 1234 (-5678) (3 / 10) (3 / 10) rfl⟩

/-! ## Claims on the controller session, the event pump and the snapshot writer -/

/-- C2: for an initialised session with no connected device open, `con_open`
leaves in `con` the handle of the first enumeration entry that is
gamepad-capable, opens and yields a mapping (and its instance id in
`joy_inst`); every earlier entry that opened without a mapping was opened and
closed again at once; and if no entry qualifies `con` ends absent. -/
theorem con_open_first_viable (initOk connected : Bool) (joys : List Joystick) (s : Session)
    (hi : s.initialized = true) (hc : s.con = none ∨ connected = false) :
    (∀ pre j post g, joys = pre ++ j :: post → (∀ p ∈ pre, viable p = none) →
        viable j = some g →
        (con_open initOk connected (some joys) s).con = some g.handle ∧
        (con_open initOk connected (some joys) s).joy_inst = toInt32 g.inst) ∧
    (∀ pre j post g, joys = pre ++ j :: post → (∀ p ∈ pre, viable p = none) →
        j.isGamepad = true → j.opened = some g → g.mapping = none →
        ∃ c1 c2, (con_open initOk connected (some joys) s).calls =
          c1 ++ [SdlCall.openGamepad g.handle, SdlCall.closeGamepad g.handle] ++ c2) ∧
    ((∀ p ∈ joys, viable p = none) → (con_open initOk connected (some joys) s).con = none) := by
  rw [con_open_eq_scan initOk connected (some joys) s hi hc]
  have hci : (con_close s).initialized = true := by rw [con_close_initialized, hi]
  obtain ⟨_, h2, h3, h4, _⟩ := con_open_scan_spec joys (con_close s) hci (con_close_con s)
  simp only [Option.getD_some]
  refine ⟨?_, ?_, ?_⟩
  · intro pre j post g hsplit hpre hj
    have hf : joys.findSome? viable = some g := by
      rw [hsplit]; exact findSome_viable_of_split pre j post g hpre hj
    exact ⟨by rw [h3, hf]; rfl, h4 g hf⟩
  · intro pre j post g hsplit hpre hgp hop hmp
    obtain ⟨c, hcs⟩ := scanCalls_split pre (j :: post) hpre
    refine ⟨(con_close s).calls ++ c, scanCalls post, ?_⟩
    rw [h2, hsplit, hcs]
    have hj : scanCalls (j :: post) =
        SdlCall.openGamepad g.handle :: SdlCall.closeGamepad g.handle :: scanCalls post := by
      simp [scanCalls, hgp, hop, hmp]
    rw [hj]
    simp
  · intro hall
    rw [h3, findSome_viable_none joys hall]
    rfl

/-- Witness of `con_open_first_viable`: a stale handle `9`, and an enumeration
of a plain joystick, an unmapped gamepad (handle `1`), a gamepad that fails to
open, a mapped gamepad (handle `2`, instance id `7`) and another mapped
gamepad; the session ends holding handle `2`. -/
theorem con_open_first_viable_witness :
    (con_open false false (some
      [⟨false, none⟩, ⟨true, some ⟨1, 5, none⟩⟩, ⟨true, none⟩,
       ⟨true, some ⟨2, 7, some "m"⟩⟩, ⟨true, some ⟨3, 8, some "n"⟩⟩])
      ⟨true, some 9, 4, []⟩).con = some 2 ∧
    (con_open false false (some
      [⟨false, none⟩, ⟨true, some ⟨1, 5, none⟩⟩, ⟨true, none⟩,
       ⟨true, some ⟨2, 7, some "m"⟩⟩, ⟨true, some ⟨3, 8, some "n"⟩⟩])
      ⟨true, some 9, 4, []⟩).joy_inst = toInt32 7 :=
  (con_open_first_viable false false
      [⟨false, none⟩, ⟨true, some ⟨1, 5, none⟩⟩, ⟨true, none⟩,
       ⟨true, some ⟨2, 7, some "m"⟩⟩, ⟨true, some ⟨3, 8, some "n"⟩⟩]
      ⟨true, some 9, 4, []⟩ rfl (Or.inr rfl)).1
    [⟨false, none⟩, ⟨true, some ⟨1, 5, none⟩⟩, ⟨true, none⟩]
    ⟨true, some ⟨2, 7, some "m"⟩⟩ [⟨true, some ⟨3, 8, some "n"⟩⟩] ⟨2, 7, some "m"⟩
    rfl (by decide) rfl

/-- C3: in every session reached from the initial state by calls of
`try_init`, `con_open`, `con_close`, `deinit` and `con_get_inputs`, with SDL
only reporting instance ids that differ from `-1`, the handle `con` is present
if and only if `joy_inst` differs from `-1`. -/
theorem reachable_handle_iff_instance (ops : List Op) (hok : ops.all opIdsOk = true) :
    (runOps ops).con.isSome = true ↔ (runOps ops).joy_inst ≠ -1 := by
  have hinit : SessionInv Session.initial := ⟨by simp [Session.initial], fun _ => rfl⟩
  exact (foldl_op_run_inv ops Session.initial hinit hok).1

/-- Witness of `reachable_handle_iff_instance`: initialise, open a mapped
gamepad with instance id `7`, poll a queue that removes another id, removes
`7` and adds an unmapped gamepad, open a mapped gamepad with id `8`. -/
theorem reachable_handle_iff_instance_witness :
    ([Op.try_init true,
      Op.con_open true false (some [⟨true, some ⟨2, 7, some "m"⟩⟩]),
      Op.con_get_inputs true
        [Event.removed 3, Event.removed 7, Event.added true true (some [⟨true, some ⟨1, 5, none⟩⟩])]
        Pad.idle inputs_t.zero,
      Op.con_open true false (some [⟨true, some ⟨4, 8, some "n"⟩⟩])].all opIdsOk = true) ∧
    ((runOps [Op.try_init true,
      Op.con_open true false (some [⟨true, some ⟨2, 7, some "m"⟩⟩]),
      Op.con_get_inputs true
        [Event.removed 3, Event.removed 7, Event.added true true (some [⟨true, some ⟨1, 5, none⟩⟩])]
        Pad.idle inputs_t.zero,
      Op.con_open true false (some [⟨true, some ⟨4, 8, some "n"⟩⟩])]).con.isSome = true ↔
     (runOps [Op.try_init true,
      Op.con_open true false (some [⟨true, some ⟨2, 7, some "m"⟩⟩]),
      Op.con_get_inputs true
        [Event.removed 3, Event.removed 7, Event.added true true (some [⟨true, some ⟨1, 5, none⟩⟩])]
        Pad.idle inputs_t.zero,
      Op.con_open true false (some [⟨true, some ⟨4, 8, some "n"⟩⟩])]).joy_inst ≠ -1) :=
  ⟨by decide, reachable_handle_iff_instance _ (by decide)⟩

theorem sclamp_clamped (r : Int) : ClampedFrom r (sclamp r (-32767) 32767) := by
  unfold ClampedFrom sclamp
  split
  · omega
  · split <;> omega

/-- C7: each of the six axis fields written by `con_write_inputs` lies in
`[-32767, 32767]`, equals the raw reading of its axis when that reading is in
the range, and equals `-32767` when the raw reading is `-32768`. -/
theorem con_write_inputs_axes (pad : Pad) (s : Session) (i : inputs_t) :
    ClampedFrom (pad.axis s.con Axis.leftX) (con_write_inputs pad s i).alx ∧
    ClampedFrom (pad.axis s.con Axis.leftY) (con_write_inputs pad s i).aly ∧
    ClampedFrom (pad.axis s.con Axis.rightX) (con_write_inputs pad s i).arx ∧
    ClampedFrom (pad.axis s.con Axis.rightY) (con_write_inputs pad s i).ary ∧
    ClampedFrom (pad.axis s.con Axis.leftTrigger) (con_write_inputs pad s i).altrig ∧
    ClampedFrom (pad.axis s.con Axis.rightTrigger) (con_write_inputs pad s i).artrig :=
  ⟨sclamp_clamped _, sclamp_clamped _, sclamp_clamped _, sclamp_clamped _,
   sclamp_clamped _, sclamp_clamped _⟩

/-- Witness of `con_write_inputs_axes`: a device reading `-32768` on every
axis leaves `-32767` in the left-stick X field. -/
theorem con_write_inputs_axes_witness :
    (con_write_inputs Pad.extreme ⟨true, some 2, 7, []⟩ inputs_t.zero).alx = -32767 :=
  (con_write_inputs_axes Pad.extreme ⟨true, some 2, 7, []⟩ inputs_t.zero).1.2.2.2 rfl

/-- C8: a device-removed event processed by `con_get_inputs` in an initialised
session (whose `joy_inst` is the sentinel when it holds no handle) closes the
device when the event id equals `joy_inst`, leaving the handle absent and
`joy_inst = -1`, and leaves the session unchanged for any other id; and
`con_get_inputs` handles such an event, wherever it stands in the queue, by
exactly this step on the session left by the events before it. -/
theorem removed_event_effect :
    (∀ (s : Session) (which : Nat), s.initialized = true → (s.con = none → s.joy_inst = -1) →
      (which = toUInt32 s.joy_inst →
        (handle_event s (Event.removed which)).con = none ∧
        (handle_event s (Event.removed which)).joy_inst = -1 ∧
        (handle_event s (Event.removed which)).initialized = true) ∧
      (which ≠ toUInt32 s.joy_inst → handle_event s (Event.removed which) = s)) ∧
    (∀ (initOk : Bool) (pre : List Event) (which : Nat) (pad : Pad) (s : Session) (i : inputs_t),
      s.initialized = true →
      (con_get_inputs initOk pre pad s i).1.initialized = true ∧
      (con_get_inputs initOk (pre ++ [Event.removed which]) pad s i).1 =
        handle_event (con_get_inputs initOk pre pad s i).1 (Event.removed which)) := by
  refine ⟨?_, ?_⟩
  · intro s which hi hinv
    refine ⟨fun hw => ?_, fun hw => ?_⟩
    · have he : handle_event s (Event.removed which) = con_close s := by
        unfold handle_event
        simp only [hw, if_true]
      rw [he]
      refine ⟨con_close_con s, ?_, by rw [con_close_initialized, hi]⟩
      cases hcon : s.con with
      | none => rw [con_close_of_none s hcon]; exact hinv hcon
      | some h => rw [con_close_of_initialized_some s h hi hcon]
    · unfold handle_event
      simp only [hw, if_false]
  · intro initOk pre which pad s i hi
    rw [con_get_inputs_of_initialized initOk pre pad s i hi,
      con_get_inputs_of_initialized initOk _ pad s i hi, List.foldl_append]
    exact ⟨foldl_handle_event_initialized pre s hi, rfl⟩

/-- Witness of `removed_event_effect`: with handle `2` and instance id `7`
active, removing id `7` leaves no device and removing id `3` changes nothing. -/
theorem removed_event_effect_witness :
    ((7 : Nat) = toUInt32 7 ∧
      (handle_event ⟨true, some 2, 7, []⟩ (Event.removed 7)).con = none ∧
      (handle_event ⟨true, some 2, 7, []⟩ (Event.removed 7)).joy_inst = -1 ∧
      (handle_event ⟨true, some 2, 7, []⟩ (Event.removed 7)).initialized = true) ∧
    ((3 : Nat) ≠ toUInt32 7 ∧
      handle_event ⟨true, some 2, 7, []⟩ (Event.removed 3) = ⟨true, some 2, 7, []⟩) :=
  ⟨⟨by decide, (removed_event_effect.1 ⟨true, some 2, 7, []⟩ 7 rfl (by decide)).1 (by decide)⟩,
   ⟨by decide, (removed_event_effect.1 ⟨true, some 2, 7, []⟩ 3 rfl (by decide)).2 (by decide)⟩⟩

/-- C9: when `con_get_inputs` ends with SDL not initialised, or with no device
open once the queue is drained, the snapshot after the call is the snapshot
given by the caller. -/
theorem con_get_inputs_no_device (initOk : Bool) (events : List Event) (pad : Pad)
    (s : Session) (i : inputs_t)
    (h : (con_get_inputs initOk events pad s i).1.initialized = false ∨
      (con_get_inputs initOk events pad s i).1.con = none) :
    (con_get_inputs initOk events pad s i).2 = i := by
  unfold con_get_inputs at h ⊢
  generalize (if (!s.initialized) = true then try_init initOk s else s) = s1 at h ⊢
  cases hi : s1.initialized with
  | false => simp [hi]
  | true =>
    have hf := foldl_handle_event_initialized events s1 hi
    simp only [hi, Bool.not_true, Bool.false_eq_true, if_false] at h ⊢
    generalize List.foldl handle_event s1 events = s2 at h hf ⊢
    cases hc : s2.con with
    | none => simp [hc]
    | some c => simp [hc, hf] at h

/-- Witness of `con_get_inputs_no_device`: from the initial state, a poll whose
queue adds an unmapped gamepad ends without a device and leaves the snapshot
as given. -/
theorem con_get_inputs_no_device_witness :
    (con_get_inputs true [Event.added true true (some [⟨true, some ⟨1, 5, none⟩⟩])]
        Pad.extreme Session.initial inputs_t.zero).1.con = none ∧
    (con_get_inputs true [Event.added true true (some [⟨true, some ⟨1, 5, none⟩⟩])]
        Pad.extreme Session.initial inputs_t.zero).2 = inputs_t.zero :=
  ⟨by decide, con_get_inputs_no_device true _ Pad.extreme Session.initial inputs_t.zero
    (Or.inr (by decide))⟩

end SdlInput
